import Mathlib

/-!
# utf8str: a UTF-8 character and string codec

A shallow embedding of `include/utf8char.h` and `include/utf8str.h`.

Conventions of the embedding:

* `utf8char_t` (`uint32_t`), `uint8_t` and `size_t` values are natural numbers.  The two
  sentinels `(size_t) -1` and `(utf8char_t) -1` are the constants `SIZE_MAX` (64-bit `size_t`)
  and `UTF8CHAR_MAX`.  Conversions to `uint8_t` are written `% 256`, a 32-bit left shift is
  reduced `% 2 ^ 32`.
* Counters and byte offsets (`i`, `size`, `chars_consumed`) are sizes of, or offsets into,
  existing objects and are kept as exact natural numbers.  An array of `utf8char_t` has 4-byte
  cells in a 64-bit address space, `4 * s.length ≤ 2 ^ 64`; a statement that needs a sum of sizes
  to stay below the sentinel carries this hypothesis, under which no sum of sizes wraps.
* A byte buffer `char *p` is a pair of a byte memory `mem : Mem` and an address `p`;
  `p[i]` is `mem (p + i)` and the pointer `p + k` is the address `p + k` in the same memory.
  The output of `read_buf_to_utf8str` is a memory of `utf8char_t` cells with an address.
* A character sequence that is only read (`utf8str_t s` of the sizing and writing functions) is
  the list of the cells of the array starting at `s`.  The scans are unbounded in the source, so a
  scan that leaves the array without meeting a terminator has no result (`none`).
-/

namespace Utf8Str

/-- The value `((size_t) -1)` of a 64-bit `size_t`. -/
def SIZE_MAX : Nat := 2 ^ 64 - 1

/-- The value `((utf8char_t) -1)`. -/
def UTF8CHAR_MAX : Nat := 2 ^ 32 - 1

/-- A memory: the content of every cell, by address. -/
abbrev Mem := Nat → Nat

/-- The assignment `mem[a] = v`. -/
def store (mem : Mem) (a v : Nat) : Mem := fun j => if j = a then v else mem j

/-! ## utf8char.h -/

/-- Embedding of `size_t utf8char_size(utf8char_t c)`. -/
def utf8char_size (c : Nat) : Nat :=
  if c < 128 then 1
  else if c < 57344 ∧ 128 ≤ (c &&& 0x000000ff) ∧ (c &&& 0x000000ff) < 192 then 2
  else if c < 15728640 ∧ 128 ≤ (c &&& 0x000000ff) ∧ (c &&& 0x000000ff) < 192
      ∧ 32768 ≤ (c &&& 0x0000ff00) ∧ (c &&& 0x0000ff00) < 49152 then 3
  else if c < 4160749568 ∧ 128 ≤ (c &&& 0x000000ff) ∧ (c &&& 0x000000ff) < 192
      ∧ 32768 ≤ (c &&& 0x0000ff00) ∧ (c &&& 0x0000ff00) < 49152
      ∧ 8388608 ≤ (c &&& 0x00ff0000) ∧ (c &&& 0x00ff0000) < 12582912 then 4
  else SIZE_MAX

/-- Embedding of `size_t deduce_utf8char_size(uint8_t b)`. -/
def deduce_utf8char_size (b : Nat) : Nat :=
  if b < 128 then 1
  else if b < 192 then 0
  else if b < 224 then 2
  else if b < 240 then 3
  else if b < 248 then 4
  else SIZE_MAX

/-- Body of the `for` loop of `str_to_utf8char`: the value of `c` after iteration `i`. -/
def str_to_utf8char_body (mem : Mem) (s deduced_size : Nat) (c i : Nat) : Nat :=
  let tmp := mem (s + i) % 256
  c ||| (tmp <<< (8 * (deduced_size - 1 - i))) % 2 ^ 32

/-- Embedding of `utf8char_t str_to_utf8char(char *s)`; the `for` loop over
`i = 0 .. deduced_size - 1` is a left fold over `List.range deduced_size`. -/
def str_to_utf8char (mem : Mem) (s : Nat) : Nat :=
  let deduced_size := deduce_utf8char_size (mem s % 256)
  if deduced_size = 0 ∨ deduced_size = SIZE_MAX then UTF8CHAR_MAX
  else
    let c := (List.range deduced_size).foldl (str_to_utf8char_body mem s deduced_size) 0
    if utf8char_size c = SIZE_MAX then UTF8CHAR_MAX
    else c

/-- Body of the `for` loop of `write_utf8char_to_buf`: the memory after iteration `i`. -/
def write_utf8char_to_buf_body (buf c size : Nat) (m : Mem) (i : Nat) : Mem :=
  let tmp := (c >>> (8 * (size - 1 - i))) % 256
  store m (buf + i) tmp

/-- Embedding of `size_t write_utf8char_to_buf(char *buf, utf8char_t c)`: the returned value and
the byte memory after the call; the `for` loop over `i = 0 .. size - 1` is a left fold over
`List.range size`. -/
def write_utf8char_to_buf (mem : Mem) (buf : Nat) (c : Nat) : Nat × Mem :=
  let size := utf8char_size c
  if size = SIZE_MAX then (size, mem)
  else (size, (List.range size).foldl (write_utf8char_to_buf_body buf c size) mem)

/-! ## utf8str.h -/

/-- Loop of `utf8str_len`: the list is the array from `s[len]` on. -/
def utf8str_len_loop : List Nat → Nat → Option Nat
  | [], _ => none
  | c :: rest, len => if c = 0 then some len else utf8str_len_loop rest (len + 1)

/-- Embedding of `size_t utf8str_len(utf8str_t s)`. -/
def utf8str_len (s : List Nat) : Option Nat := utf8str_len_loop s 0

/-- Loop of `utf8str_buf_size`: the list is the array from `s[i]` on. -/
def utf8str_buf_size_loop : List Nat → Nat → Option Nat
  | [], _ => none
  | c :: rest, size =>
    if c = 0 then some (size + utf8char_size 0)
    else
      let tmp := utf8char_size c
      if tmp = SIZE_MAX then some tmp
      else utf8str_buf_size_loop rest (size + tmp)

/-- Embedding of `size_t utf8str_buf_size(utf8str_t s)`. -/
def utf8str_buf_size (s : List Nat) : Option Nat := utf8str_buf_size_loop s 0

/-- Loop of `utf8str_buf_size_n`: the list is the array from `s[i]` on and the first number is
`char_count - i`, the iterations left. -/
def utf8str_buf_size_n_loop : List Nat → Nat → Nat → Option Nat
  | _, 0, size => some size
  | [], _ + 1, _ => none
  | c :: rest, left + 1, size =>
    if c = 0 then some (size + utf8char_size 0)
    else
      let tmp := utf8char_size c
      if tmp = SIZE_MAX then some tmp
      else utf8str_buf_size_n_loop rest left (size + tmp)

/-- Embedding of `size_t utf8str_buf_size_n(utf8str_t s, size_t char_count)`. -/
def utf8str_buf_size_n (s : List Nat) (char_count : Nat) : Option Nat :=
  utf8str_buf_size_n_loop s char_count 0

/-- Loop of `inval_utf8str_buf_size`: the list is the array from `s[i]` on. -/
def inval_utf8str_buf_size_loop : List Nat → Nat → Option Nat
  | [], _ => none
  | c :: rest, size =>
    if c = 0 then some (size + utf8char_size 0)
    else
      let tmp := utf8char_size c
      if tmp = SIZE_MAX then some size
      else inval_utf8str_buf_size_loop rest (size + tmp)

/-- Embedding of `size_t inval_utf8str_buf_size(utf8str_t s)`. -/
def inval_utf8str_buf_size (s : List Nat) : Option Nat := inval_utf8str_buf_size_loop s 0

/-- Loop of `write_utf8str_to_buf`: the list is the array from `s[i]` on, `size` the bytes written
so far. -/
def write_utf8str_to_buf_loop (buf : Nat) : List Nat → Nat → Mem → Option (Nat × Mem)
  | [], _, _ => none
  | c :: rest, size, mem =>
    if c = 0 then
      let r := write_utf8char_to_buf mem (buf + size) 0
      some (size + r.1, r.2)
    else
      let r := write_utf8char_to_buf mem (buf + size) c
      if r.1 = SIZE_MAX then some (r.1, r.2)
      else write_utf8str_to_buf_loop buf rest (size + r.1) r.2

/-- Embedding of `size_t write_utf8str_to_buf(char *buf, utf8str_t s)`. -/
def write_utf8str_to_buf (mem : Mem) (buf : Nat) (s : List Nat) : Option (Nat × Mem) :=
  write_utf8str_to_buf_loop buf s 0 mem

/-- Loop of `write_utf8str_to_buf_n`: the list is the array from `s[i]` on and the first number
is `char_count - i`, the iterations left. -/
def write_utf8str_to_buf_n_loop (buf : Nat) : List Nat → Nat → Nat → Mem → Option (Nat × Mem)
  | _, 0, size, mem => some (size, mem)
  | [], _ + 1, _, _ => none
  | c :: rest, left + 1, size, mem =>
    if c = 0 then
      let r := write_utf8char_to_buf mem (buf + size) 0
      some (size + r.1, r.2)
    else
      let r := write_utf8char_to_buf mem (buf + size) c
      if r.1 = SIZE_MAX then some (r.1, r.2)
      else write_utf8str_to_buf_n_loop buf rest left (size + r.1) r.2

/-- Embedding of `size_t write_utf8str_to_buf_n(char *buf, utf8str_t s, size_t char_count)`. -/
def write_utf8str_to_buf_n (mem : Mem) (buf : Nat) (s : List Nat) (char_count : Nat) :
    Option (Nat × Mem) :=
  write_utf8str_to_buf_n_loop buf s char_count 0 mem

/-- Loop of `read_buf_to_utf8str`, one iteration per unit of fuel: `smem`, `s` is the output
sequence, `mem`, `buf` the byte buffer.  Leaving the loop by `break` falls through to
`return bufsize`. -/
def read_buf_to_utf8str_loop (s : Nat) (mem : Mem) (buf bufsize : Nat) :
    Nat → Nat → Mem → Nat → Option (Nat × Mem)
  | 0, _, _, _ => none
  | fuel + 1, i, smem, chars_consumed =>
    if i < bufsize then
      let deduced_size := deduce_utf8char_size (mem (buf + i) % 256)
      if deduced_size = 0 ∨ deduced_size = SIZE_MAX ∨ i + deduced_size > bufsize then
        some (i, smem)
      else
        let c := str_to_utf8char mem (buf + i)
        if c = UTF8CHAR_MAX then some (i, smem)
        else
          let smem1 := store smem (s + chars_consumed) c
          if c = 0 then some (bufsize, smem1)
          else read_buf_to_utf8str_loop s mem buf bufsize fuel (i + deduced_size) smem1
            (chars_consumed + 1)
    else some (bufsize, smem)

/-- Embedding of `size_t read_buf_to_utf8str(utf8str_t s, char *buf, size_t bufsize)`: the
returned value and the character memory after the call.  Every iteration advances `i` by at
least one byte, so `bufsize + 1` units of fuel always suffice. -/
def read_buf_to_utf8str (smem : Mem) (s : Nat) (mem : Mem) (buf bufsize : Nat) :
    Option (Nat × Mem) :=
  read_buf_to_utf8str_loop s mem buf bufsize (bufsize + 1) 0 smem 0

/-- The bytes of a list laid out in memory from address 0, zero elsewhere. -/
def memOfList (l : List Nat) : Mem := fun j => l.getD j 0

/-- The cells `p[0 .. n-1]` of a memory. -/
def cells (mem : Mem) (p n : Nat) : List Nat := (List.range n).map (fun i => mem (p + i))

/-- The bytes that `write_utf8char_to_buf` produces for `c`: none for an invalid `c`. -/
def encoded_char (c : Nat) : List Nat :=
  let r := write_utf8char_to_buf (fun _ => 0) 0 c
  if r.1 = SIZE_MAX then [] else cells r.2 0 r.1

/-- The bytes produced by encoding the characters of a list one after the other. -/
def encoded_chars : List Nat → List Nat
  | [] => []
  | c :: cs => encoded_char c ++ encoded_chars cs

/-- A well-formed character: `utf8char_size c = k` is not the sentinel and the most significant
of the `k` packed bytes of `c` is a lead byte for which `deduce_utf8char_size` gives `k`. -/
abbrev well_formed (c : Nat) : Prop :=
  utf8char_size c ≠ SIZE_MAX ∧
    deduce_utf8char_size (c / 256 ^ (utf8char_size c - 1) % 256) = utf8char_size c

/-- The memory after storing the elements of a list in consecutive cells from address `a`. -/
def storeList (mem : Mem) : Nat → List Nat → Mem
  | _, [] => mem
  | a, c :: cs => storeList (store mem a c) (a + 1) cs

/-! ## Bit-level facts -/

theorem land_ff (c : Nat) : c &&& 0x000000ff = c % 256 :=
  Nat.and_pow_two_sub_one_eq_mod c 8

theorem land_byte_shifted (c k : Nat) :
    c &&& ((2 ^ 8 - 1) <<< k) = ((c >>> k) % 2 ^ 8) <<< k := by
  apply Nat.eq_of_testBit_eq
  intro i
  simp only [Nat.testBit_and, Nat.testBit_shiftLeft, Nat.testBit_mod_two_pow,
    Nat.testBit_shiftRight, Nat.testBit_two_pow_sub_one]
  by_cases h : k ≤ i
  · have hk : k + (i - k) = i := by omega
    simp [h, hk, Bool.and_comm]
  · simp [h]

theorem land_ff00 (c : Nat) : c &&& 0x0000ff00 = c / 256 % 256 * 256 := by
  have h := land_byte_shifted c 8
  simpa [Nat.shiftLeft_eq, Nat.shiftRight_eq_div_pow] using h

theorem land_ff0000 (c : Nat) : c &&& 0x00ff0000 = c / 65536 % 256 * 65536 := by
  have h := land_byte_shifted c 16
  simpa [Nat.shiftLeft_eq, Nat.shiftRight_eq_div_pow] using h

theorem lor_low (a y i : Nat) (hy : y < 2 ^ i) : 2 ^ i * a ||| y = 2 ^ i * a + y :=
  (Nat.mul_add_lt_is_or hy a).symm

/-- The size classification with the masks read as bytes of `c`. -/
theorem utf8char_size_arith (c : Nat) :
    utf8char_size c =
      if c < 128 then 1
      else if c < 57344 ∧ 128 ≤ c % 256 ∧ c % 256 < 192 then 2
      else if c < 15728640 ∧ 128 ≤ c % 256 ∧ c % 256 < 192
          ∧ 128 ≤ c / 256 % 256 ∧ c / 256 % 256 < 192 then 3
      else if c < 4160749568 ∧ 128 ≤ c % 256 ∧ c % 256 < 192
          ∧ 128 ≤ c / 256 % 256 ∧ c / 256 % 256 < 192
          ∧ 128 ≤ c / 65536 % 256 ∧ c / 65536 % 256 < 192 then 4
      else SIZE_MAX := by
  unfold utf8char_size
  rw [land_ff, land_ff00, land_ff0000]
  have e1 : (32768 ≤ c / 256 % 256 * 256) = (128 ≤ c / 256 % 256) := by
    apply propext; constructor <;> intro h <;> omega
  have e2 : (c / 256 % 256 * 256 < 49152) = (c / 256 % 256 < 192) := by
    apply propext; constructor <;> intro h <;> omega
  have e3 : (8388608 ≤ c / 65536 % 256 * 65536) = (128 ≤ c / 65536 % 256) := by
    apply propext; constructor <;> intro h <;> omega
  have e4 : (c / 65536 % 256 * 65536 < 12582912) = (c / 65536 % 256 < 192) := by
    apply propext; constructor <;> intro h <;> omega
  simp only [e1, e2, e3, e4]

theorem utf8char_size_cases (c : Nat) :
    utf8char_size c = 1 ∨ utf8char_size c = 2 ∨ utf8char_size c = 3 ∨ utf8char_size c = 4
      ∨ utf8char_size c = SIZE_MAX := by
  unfold utf8char_size
  split_ifs <;> simp

/-! ## Packing of the decoder loop -/

theorem pack1 (mem : Mem) (s : Nat) :
    (List.range 1).foldl (str_to_utf8char_body mem s 1) 0 = mem s % 256 := by
  have h0 : mem s % 256 < 256 := Nat.mod_lt _ (by norm_num)
  simp only [List.range_succ, List.range_zero, List.nil_append, List.foldl_cons, List.foldl_nil,
    str_to_utf8char_body, Nat.shiftLeft_eq, Nat.add_zero, Nat.zero_or]
  norm_num
  omega

theorem pack2 (mem : Mem) (s : Nat) :
    (List.range 2).foldl (str_to_utf8char_body mem s 2) 0
      = mem s % 256 * 256 + mem (s + 1) % 256 := by
  have h0 : mem s % 256 < 256 := Nat.mod_lt _ (by norm_num)
  have h1 : mem (s + 1) % 256 < 256 := Nat.mod_lt _ (by norm_num)
  simp only [List.range_succ, List.range_zero, List.nil_append, List.foldl_cons, List.foldl_nil,
    List.cons_append, str_to_utf8char_body, Nat.shiftLeft_eq, Nat.add_zero, Nat.zero_or]
  norm_num
  rw [Nat.mod_eq_of_lt (by omega : mem s % 256 * 256 < 4294967296),
    Nat.mod_eq_of_lt (by omega : mem (s + 1) % 256 < 4294967296)]
  have e := lor_low (mem s % 256) (mem (s + 1) % 256) 8 (by omega)
  norm_num at e
  rw [Nat.mul_comm]; exact e

theorem pack3 (mem : Mem) (s : Nat) :
    (List.range 3).foldl (str_to_utf8char_body mem s 3) 0
      = mem s % 256 * 65536 + mem (s + 1) % 256 * 256 + mem (s + 2) % 256 := by
  have h0 : mem s % 256 < 256 := Nat.mod_lt _ (by norm_num)
  have h1 : mem (s + 1) % 256 < 256 := Nat.mod_lt _ (by norm_num)
  have h2 : mem (s + 2) % 256 < 256 := Nat.mod_lt _ (by norm_num)
  simp only [List.range_succ, List.range_zero, List.nil_append, List.foldl_cons, List.foldl_nil,
    List.cons_append, str_to_utf8char_body, Nat.shiftLeft_eq, Nat.add_zero, Nat.zero_or]
  norm_num
  rw [Nat.mod_eq_of_lt (by omega : mem s % 256 * 65536 < 4294967296),
    Nat.mod_eq_of_lt (by omega : mem (s + 1) % 256 * 256 < 4294967296),
    Nat.mod_eq_of_lt (by omega : mem (s + 2) % 256 < 4294967296)]
  have e1 := lor_low (mem s % 256) (mem (s + 1) % 256 * 256) 16 (by omega)
  have e2 := lor_low (mem s % 256 * 256 + mem (s + 1) % 256) (mem (s + 2) % 256) 8 (by omega)
  norm_num at e1 e2
  rw [Nat.mul_comm (mem s % 256) 65536, e1,
    show 65536 * (mem s % 256) + mem (s + 1) % 256 * 256
      = 256 * (mem s % 256 * 256 + mem (s + 1) % 256) by omega, e2]

theorem pack4 (mem : Mem) (s : Nat) :
    (List.range 4).foldl (str_to_utf8char_body mem s 4) 0
      = mem s % 256 * 16777216 + mem (s + 1) % 256 * 65536 + mem (s + 2) % 256 * 256
        + mem (s + 3) % 256 := by
  have h0 : mem s % 256 < 256 := Nat.mod_lt _ (by norm_num)
  have h1 : mem (s + 1) % 256 < 256 := Nat.mod_lt _ (by norm_num)
  have h2 : mem (s + 2) % 256 < 256 := Nat.mod_lt _ (by norm_num)
  have h3 : mem (s + 3) % 256 < 256 := Nat.mod_lt _ (by norm_num)
  simp only [List.range_succ, List.range_zero, List.nil_append, List.foldl_cons, List.foldl_nil,
    List.cons_append, str_to_utf8char_body, Nat.shiftLeft_eq, Nat.add_zero, Nat.zero_or]
  norm_num
  rw [Nat.mod_eq_of_lt (by omega : mem s % 256 * 16777216 < 4294967296),
    Nat.mod_eq_of_lt (by omega : mem (s + 1) % 256 * 65536 < 4294967296),
    Nat.mod_eq_of_lt (by omega : mem (s + 2) % 256 * 256 < 4294967296),
    Nat.mod_eq_of_lt (by omega : mem (s + 3) % 256 < 4294967296)]
  have e1 := lor_low (mem s % 256) (mem (s + 1) % 256 * 65536) 24 (by omega)
  have e2 := lor_low (mem s % 256 * 256 + mem (s + 1) % 256) (mem (s + 2) % 256 * 256) 16
    (by omega)
  have e3 := lor_low (mem s % 256 * 65536 + mem (s + 1) % 256 * 256 + mem (s + 2) % 256)
    (mem (s + 3) % 256) 8 (by omega)
  norm_num at e1 e2 e3
  rw [Nat.mul_comm (mem s % 256) 16777216, e1,
    show 16777216 * (mem s % 256) + mem (s + 1) % 256 * 65536
      = 65536 * (mem s % 256 * 256 + mem (s + 1) % 256) by omega, e2,
    show 65536 * (mem s % 256 * 256 + mem (s + 1) % 256) + mem (s + 2) % 256 * 256
      = 256 * (mem s % 256 * 65536 + mem (s + 1) % 256 * 256 + mem (s + 2) % 256) by omega, e3]

/-! ## The decoder, case by case on the lead byte -/

theorem SIZE_MAX_val : SIZE_MAX = 18446744073709551615 := by
  unfold SIZE_MAX; norm_num

theorem UTF8CHAR_MAX_val : UTF8CHAR_MAX = 4294967295 := by
  unfold UTF8CHAR_MAX; norm_num

theorem deduce_eq_1 (b : Nat) (h : b < 128) : deduce_utf8char_size b = 1 := by
  unfold deduce_utf8char_size; rw [if_pos h]

theorem deduce_eq_0 (b : Nat) (h1 : 128 ≤ b) (h2 : b < 192) : deduce_utf8char_size b = 0 := by
  unfold deduce_utf8char_size; rw [if_neg (by omega), if_pos h2]

theorem deduce_eq_2 (b : Nat) (h1 : 192 ≤ b) (h2 : b < 224) : deduce_utf8char_size b = 2 := by
  unfold deduce_utf8char_size; rw [if_neg (by omega), if_neg (by omega), if_pos h2]

theorem deduce_eq_3 (b : Nat) (h1 : 224 ≤ b) (h2 : b < 240) : deduce_utf8char_size b = 3 := by
  unfold deduce_utf8char_size
  rw [if_neg (by omega), if_neg (by omega), if_neg (by omega), if_pos h2]

theorem deduce_eq_4 (b : Nat) (h1 : 240 ≤ b) (h2 : b < 248) : deduce_utf8char_size b = 4 := by
  unfold deduce_utf8char_size
  rw [if_neg (by omega), if_neg (by omega), if_neg (by omega), if_neg (by omega), if_pos h2]

theorem deduce_eq_max (b : Nat) (h1 : 248 ≤ b) : deduce_utf8char_size b = SIZE_MAX := by
  unfold deduce_utf8char_size
  rw [if_neg (by omega), if_neg (by omega), if_neg (by omega), if_neg (by omega),
    if_neg (by omega)]

theorem size_one (b0 : Nat) (h : b0 < 128) : utf8char_size b0 = 1 := by
  rw [utf8char_size_arith, if_pos h]

theorem size_two (b0 b1 : Nat) (h0 : 128 ≤ b0 * 256 + b1) (h1 : b0 < 224) (hb1 : b1 < 256) :
    utf8char_size (b0 * 256 + b1) = if 128 ≤ b1 ∧ b1 < 192 then 2 else SIZE_MAX := by
  rw [utf8char_size_arith]
  have e0 : (b0 * 256 + b1) % 256 = b1 := by omega
  rw [e0, if_neg (by omega)]
  by_cases hc : 128 ≤ b1 ∧ b1 < 192
  · rw [if_pos ⟨by omega, hc⟩, if_pos hc]
  · rw [if_neg (fun h => hc h.2), if_neg (fun h => hc ⟨h.2.1, h.2.2.1⟩),
      if_neg (fun h => hc ⟨h.2.1, h.2.2.1⟩), if_neg hc]

theorem size_three (b0 b1 b2 : Nat) (h0 : 224 ≤ b0) (h1 : b0 < 240) (hb1 : b1 < 256)
    (hb2 : b2 < 256) :
    utf8char_size (b0 * 65536 + b1 * 256 + b2) =
      if (128 ≤ b1 ∧ b1 < 192) ∧ (128 ≤ b2 ∧ b2 < 192) then 3 else SIZE_MAX := by
  rw [utf8char_size_arith]
  have e0 : (b0 * 65536 + b1 * 256 + b2) % 256 = b2 := by omega
  have e1 : (b0 * 65536 + b1 * 256 + b2) / 256 % 256 = b1 := by omega
  have e2 : (b0 * 65536 + b1 * 256 + b2) / 65536 % 256 = b0 := by omega
  rw [e0, e1, e2, if_neg (by omega), if_neg (fun h => by omega)]
  by_cases hc : (128 ≤ b1 ∧ b1 < 192) ∧ (128 ≤ b2 ∧ b2 < 192)
  · rw [if_pos ⟨by omega, hc.2.1, hc.2.2, hc.1.1, hc.1.2⟩, if_pos hc]
  · rw [if_neg (fun h => hc ⟨⟨h.2.2.2.1, h.2.2.2.2⟩, h.2.1, h.2.2.1⟩),
      if_neg (fun h => by omega), if_neg hc]

theorem size_four (b0 b1 b2 b3 : Nat) (h0 : 240 ≤ b0) (h1 : b0 < 248) (hb1 : b1 < 256)
    (hb2 : b2 < 256) (hb3 : b3 < 256) :
    utf8char_size (b0 * 16777216 + b1 * 65536 + b2 * 256 + b3) =
      if (128 ≤ b1 ∧ b1 < 192) ∧ (128 ≤ b2 ∧ b2 < 192) ∧ (128 ≤ b3 ∧ b3 < 192)
      then 4 else SIZE_MAX := by
  rw [utf8char_size_arith]
  have e0 : (b0 * 16777216 + b1 * 65536 + b2 * 256 + b3) % 256 = b3 := by omega
  have e1 : (b0 * 16777216 + b1 * 65536 + b2 * 256 + b3) / 256 % 256 = b2 := by omega
  have e2 : (b0 * 16777216 + b1 * 65536 + b2 * 256 + b3) / 65536 % 256 = b1 := by omega
  rw [e0, e1, e2, if_neg (by omega), if_neg (fun h => by omega), if_neg (fun h => by omega)]
  by_cases hc : (128 ≤ b1 ∧ b1 < 192) ∧ (128 ≤ b2 ∧ b2 < 192) ∧ (128 ≤ b3 ∧ b3 < 192)
  · rw [if_pos ⟨by omega, hc.2.2.1, hc.2.2.2, hc.2.1.1, hc.2.1.2, hc.1.1, hc.1.2⟩, if_pos hc]
  · rw [if_neg (fun h => hc ⟨⟨h.2.2.2.2.2.1, h.2.2.2.2.2.2⟩, ⟨h.2.2.2.1, h.2.2.2.2.1⟩,
      h.2.1, h.2.2.1⟩), if_neg hc]

theorem str_to_utf8char_bad (mem : Mem) (s : Nat)
    (h : (128 ≤ mem s % 256 ∧ mem s % 256 < 192) ∨ 248 ≤ mem s % 256) :
    str_to_utf8char mem s = UTF8CHAR_MAX := by
  unfold str_to_utf8char
  rcases h with ⟨h1, h2⟩ | h1
  · simp [deduce_eq_0 _ h1 h2]
  · simp [deduce_eq_max _ h1]

theorem str_to_utf8char_one (mem : Mem) (s : Nat) (h : mem s % 256 < 128) :
    str_to_utf8char mem s = mem s % 256 := by
  unfold str_to_utf8char
  simp only [deduce_eq_1 _ h, pack1]
  rw [size_one _ h, SIZE_MAX_val]
  norm_num

theorem str_to_utf8char_two (mem : Mem) (s : Nat)
    (h1 : 192 ≤ mem s % 256) (h2 : mem s % 256 < 224) :
    str_to_utf8char mem s =
      if 128 ≤ mem (s + 1) % 256 ∧ mem (s + 1) % 256 < 192
      then mem s % 256 * 256 + mem (s + 1) % 256 else UTF8CHAR_MAX := by
  unfold str_to_utf8char
  simp only [deduce_eq_2 _ h1 h2, pack2]
  rw [size_two _ _ (by omega) h2 (Nat.mod_lt _ (by norm_num)), SIZE_MAX_val]
  by_cases hc : 128 ≤ mem (s + 1) % 256 ∧ mem (s + 1) % 256 < 192
  · simp [hc]
  · simp [hc]

theorem str_to_utf8char_three (mem : Mem) (s : Nat)
    (h1 : 224 ≤ mem s % 256) (h2 : mem s % 256 < 240) :
    str_to_utf8char mem s =
      if (128 ≤ mem (s + 1) % 256 ∧ mem (s + 1) % 256 < 192)
          ∧ (128 ≤ mem (s + 2) % 256 ∧ mem (s + 2) % 256 < 192)
      then mem s % 256 * 65536 + mem (s + 1) % 256 * 256 + mem (s + 2) % 256
      else UTF8CHAR_MAX := by
  unfold str_to_utf8char
  simp only [deduce_eq_3 _ h1 h2, pack3]
  rw [size_three _ _ _ h1 h2 (Nat.mod_lt _ (by norm_num)) (Nat.mod_lt _ (by norm_num)),
    SIZE_MAX_val]
  by_cases hc : (128 ≤ mem (s + 1) % 256 ∧ mem (s + 1) % 256 < 192)
      ∧ (128 ≤ mem (s + 2) % 256 ∧ mem (s + 2) % 256 < 192)
  · simp [hc]
  · simp [hc]

theorem str_to_utf8char_four (mem : Mem) (s : Nat)
    (h1 : 240 ≤ mem s % 256) (h2 : mem s % 256 < 248) :
    str_to_utf8char mem s =
      if (128 ≤ mem (s + 1) % 256 ∧ mem (s + 1) % 256 < 192)
          ∧ (128 ≤ mem (s + 2) % 256 ∧ mem (s + 2) % 256 < 192)
          ∧ (128 ≤ mem (s + 3) % 256 ∧ mem (s + 3) % 256 < 192)
      then mem s % 256 * 16777216 + mem (s + 1) % 256 * 65536 + mem (s + 2) % 256 * 256
        + mem (s + 3) % 256
      else UTF8CHAR_MAX := by
  unfold str_to_utf8char
  simp only [deduce_eq_4 _ h1 h2, pack4]
  rw [size_four _ _ _ _ h1 h2 (Nat.mod_lt _ (by norm_num)) (Nat.mod_lt _ (by norm_num))
    (Nat.mod_lt _ (by norm_num)), SIZE_MAX_val]
  by_cases hc : (128 ≤ mem (s + 1) % 256 ∧ mem (s + 1) % 256 < 192)
      ∧ (128 ≤ mem (s + 2) % 256 ∧ mem (s + 2) % 256 < 192)
      ∧ (128 ≤ mem (s + 3) % 256 ∧ mem (s + 3) % 256 < 192)
  · simp [hc]
  · simp [hc]

/-! ## The encoder loop -/

theorem store_same (mem : Mem) (a v : Nat) : store mem a v a = v := by
  simp [store]

theorem store_other (mem : Mem) (a v j : Nat) (h : j ≠ a) : store mem a v j = mem j := by
  simp [store, h]

/-- After `n` iterations of the encoder loop the first `n` bytes hold the bytes of `c` from the
most significant of the `size` bytes down, and all other cells are as before. -/
theorem write_fold (buf c size : Nat) (mem : Mem) (n : Nat) :
    (∀ i, i < n →
      (List.range n).foldl (write_utf8char_to_buf_body buf c size) mem (buf + i)
        = c / 256 ^ (size - 1 - i) % 256) ∧
    (∀ a, (a < buf ∨ buf + n ≤ a) →
      (List.range n).foldl (write_utf8char_to_buf_body buf c size) mem a = mem a) := by
  induction n with
  | zero =>
    refine ⟨fun i hi => absurd hi (Nat.not_lt_zero i), fun a _ => ?_⟩
    simp
  | succ n ih =>
    obtain ⟨ih1, ih2⟩ := ih
    rw [List.range_succ, List.foldl_append]
    simp only [List.foldl_cons, List.foldl_nil]
    constructor
    · intro i hi
      by_cases hin : i = n
      · subst hin
        simp only [write_utf8char_to_buf_body]
        rw [store_same, Nat.shiftRight_eq_div_pow, pow_mul]
        norm_num
      · simp only [write_utf8char_to_buf_body]
        rw [store_other _ _ _ _ (by omega)]
        exact ih1 i (by omega)
    · intro a ha
      simp only [write_utf8char_to_buf_body]
      rw [store_other _ _ _ _ (by omega)]
      exact ih2 a (by omega)

theorem write_utf8char_to_buf_invalid (mem : Mem) (buf c : Nat)
    (h : utf8char_size c = SIZE_MAX) : write_utf8char_to_buf mem buf c = (SIZE_MAX, mem) := by
  unfold write_utf8char_to_buf
  simp [h]

theorem write_utf8char_to_buf_valid (mem : Mem) (buf c : Nat)
    (h : utf8char_size c ≠ SIZE_MAX) :
    (write_utf8char_to_buf mem buf c).1 = utf8char_size c ∧
    (∀ i, i < utf8char_size c →
      (write_utf8char_to_buf mem buf c).2 (buf + i)
        = c / 256 ^ (utf8char_size c - 1 - i) % 256) ∧
    (∀ a, (a < buf ∨ buf + utf8char_size c ≤ a) →
      (write_utf8char_to_buf mem buf c).2 a = mem a) := by
  unfold write_utf8char_to_buf
  simp only [h, if_false]
  exact ⟨trivial, write_fold buf c (utf8char_size c) mem (utf8char_size c)⟩

/-! ## A successful decode -/

/-- What a successful decode looks like: the lead byte predicts a size `k` in `1 .. 4`, the result
has size `k`, fits in `k` bytes, and its `k` bytes are the bytes read. -/
theorem str_to_utf8char_ok (mem : Mem) (s : Nat) (h : str_to_utf8char mem s ≠ UTF8CHAR_MAX) :
    (deduce_utf8char_size (mem s % 256) = 1 ∨ deduce_utf8char_size (mem s % 256) = 2
      ∨ deduce_utf8char_size (mem s % 256) = 3 ∨ deduce_utf8char_size (mem s % 256) = 4) ∧
    utf8char_size (str_to_utf8char mem s) = deduce_utf8char_size (mem s % 256) ∧
    str_to_utf8char mem s < 256 ^ deduce_utf8char_size (mem s % 256) ∧
    (∀ i, i < deduce_utf8char_size (mem s % 256) →
      str_to_utf8char mem s / 256 ^ (deduce_utf8char_size (mem s % 256) - 1 - i) % 256
        = mem (s + i) % 256) ∧
    (∀ i, 1 ≤ i → i < deduce_utf8char_size (mem s % 256) →
      128 ≤ mem (s + i) % 256 ∧ mem (s + i) % 256 < 192) := by
  have hb0 : mem s % 256 < 256 := Nat.mod_lt _ (by norm_num)
  have hb1 : mem (s + 1) % 256 < 256 := Nat.mod_lt _ (by norm_num)
  have hb2 : mem (s + 2) % 256 < 256 := Nat.mod_lt _ (by norm_num)
  have hb3 : mem (s + 3) % 256 < 256 := Nat.mod_lt _ (by norm_num)
  by_cases c1 : mem s % 256 < 128
  · rw [str_to_utf8char_one _ _ c1, deduce_eq_1 _ c1, size_one _ c1]
    refine ⟨Or.inl rfl, rfl, by omega, ?_, ?_⟩
    · intro i hi
      obtain rfl : i = 0 := by omega
      simp
    · intro i h1 h2; omega
  by_cases c2 : mem s % 256 < 192
  · exact absurd (str_to_utf8char_bad mem s (Or.inl ⟨by omega, c2⟩)) h
  by_cases c3 : mem s % 256 < 224
  · rw [str_to_utf8char_two _ _ (by omega) c3] at h ⊢
    rw [deduce_eq_2 _ (by omega) c3]
    by_cases hc : 128 ≤ mem (s + 1) % 256 ∧ mem (s + 1) % 256 < 192
    · rw [if_pos hc, size_two _ _ (by omega) c3 hb1, if_pos hc]
      refine ⟨by simp, rfl, by omega, ?_, ?_⟩
      · intro i hi
        interval_cases i
        · simp; omega
        · simp; omega
      · intro i h1 h2
        obtain rfl : i = 1 := by omega
        exact hc
    · rw [if_neg hc] at h; exact absurd rfl h
  by_cases c4 : mem s % 256 < 240
  · rw [str_to_utf8char_three _ _ (by omega) c4] at h ⊢
    rw [deduce_eq_3 _ (by omega) c4]
    by_cases hc : (128 ≤ mem (s + 1) % 256 ∧ mem (s + 1) % 256 < 192)
        ∧ (128 ≤ mem (s + 2) % 256 ∧ mem (s + 2) % 256 < 192)
    · rw [if_pos hc, size_three _ _ _ (by omega) c4 hb1 hb2, if_pos hc]
      refine ⟨by simp, rfl, by omega, ?_, ?_⟩
      · intro i hi
        interval_cases i
        · simp; omega
        · simp; omega
        · simp; omega
      · intro i h1 h2
        interval_cases i
        · exact hc.1
        · exact hc.2
    · rw [if_neg hc] at h; exact absurd rfl h
  by_cases c5 : mem s % 256 < 248
  · rw [str_to_utf8char_four _ _ (by omega) c5] at h ⊢
    rw [deduce_eq_4 _ (by omega) c5]
    by_cases hc : (128 ≤ mem (s + 1) % 256 ∧ mem (s + 1) % 256 < 192)
        ∧ (128 ≤ mem (s + 2) % 256 ∧ mem (s + 2) % 256 < 192)
        ∧ (128 ≤ mem (s + 3) % 256 ∧ mem (s + 3) % 256 < 192)
    · rw [if_pos hc, size_four _ _ _ _ (by omega) c5 hb1 hb2 hb3, if_pos hc]
      refine ⟨by simp, rfl, by omega, ?_, ?_⟩
      · intro i hi
        interval_cases i
        · simp; omega
        · simp; omega
        · simp; omega
        · simp; omega
      · intro i h1 h2
        interval_cases i
        · exact hc.1
        · exact hc.2.1
        · exact hc.2.2
    · rw [if_neg hc] at h; exact absurd rfl h
  · exact absurd (str_to_utf8char_bad mem s (Or.inr (by omega))) h

theorem deduce_inv (b : Nat) :
    (deduce_utf8char_size b = 1 → b < 128) ∧
    (deduce_utf8char_size b = 2 → 192 ≤ b ∧ b < 224) ∧
    (deduce_utf8char_size b = 3 → 224 ≤ b ∧ b < 240) ∧
    (deduce_utf8char_size b = 4 → 240 ≤ b ∧ b < 248) := by
  unfold deduce_utf8char_size
  rw [SIZE_MAX_val]
  split_ifs <;> refine ⟨?_, ?_, ?_, ?_⟩ <;> intro h <;> first | omega | simp at h

/-- A well-formed byte pattern decodes: a lead byte predicting `k` in `1 .. 4` followed by `k - 1`
continuation bytes never yields the sentinel. -/
theorem str_to_utf8char_wf (mem : Mem) (s : Nat)
    (hk : deduce_utf8char_size (mem s % 256) = 1 ∨ deduce_utf8char_size (mem s % 256) = 2
      ∨ deduce_utf8char_size (mem s % 256) = 3 ∨ deduce_utf8char_size (mem s % 256) = 4)
    (hc : ∀ i, 1 ≤ i → i < deduce_utf8char_size (mem s % 256) →
      128 ≤ mem (s + i) % 256 ∧ mem (s + i) % 256 < 192) :
    str_to_utf8char mem s ≠ UTF8CHAR_MAX := by
  have hb0 : mem s % 256 < 256 := Nat.mod_lt _ (by norm_num)
  obtain ⟨i1, i2, i3, i4⟩ := deduce_inv (mem s % 256)
  rw [UTF8CHAR_MAX_val]
  rcases hk with hk | hk | hk | hk
  · rw [str_to_utf8char_one _ _ (i1 hk)]; omega
  · rw [hk] at hc
    rw [str_to_utf8char_two _ _ (i2 hk).1 (i2 hk).2, if_pos (hc 1 (by omega) (by omega))]
    have := hc 1 (by omega) (by omega)
    omega
  · rw [hk] at hc
    rw [str_to_utf8char_three _ _ (i3 hk).1 (i3 hk).2,
      if_pos ⟨hc 1 (by omega) (by omega), hc 2 (by omega) (by omega)⟩]
    have := hc 1 (by omega) (by omega)
    have := hc 2 (by omega) (by omega)
    omega
  · rw [hk] at hc
    rw [str_to_utf8char_four _ _ (i4 hk).1 (i4 hk).2,
      if_pos ⟨hc 1 (by omega) (by omega), hc 2 (by omega) (by omega),
        hc 3 (by omega) (by omega)⟩]
    have := hc 1 (by omega) (by omega)
    have := hc 2 (by omega) (by omega)
    have := hc 3 (by omega) (by omega)
    have := (i4 hk).2
    omega

/-- The big-endian value of the bytes read by a successful decode. -/
theorem str_to_utf8char_digits (mem : Mem) (s : Nat) (h : str_to_utf8char mem s ≠ UTF8CHAR_MAX) :
    str_to_utf8char mem s = Nat.ofDigits 256
      (((cells mem s (deduce_utf8char_size (mem s % 256))).map (fun b => b % 256)).reverse) := by
  obtain ⟨hk, -, hlt, hd, -⟩ := str_to_utf8char_ok mem s h
  rcases hk with hk | hk | hk | hk <;> rw [hk] at hlt hd ⊢
  · have d0 := hd 0 (by omega)
    simp [cells, List.range_succ, Nat.ofDigits] at d0 hlt ⊢
    omega
  · have d0 := hd 0 (by omega)
    have d1 := hd 1 (by omega)
    simp [cells, List.range_succ, Nat.ofDigits] at d0 d1 hlt ⊢
    omega
  · have d0 := hd 0 (by omega)
    have d1 := hd 1 (by omega)
    have d2 := hd 2 (by omega)
    simp [cells, List.range_succ, Nat.ofDigits] at d0 d1 d2 hlt ⊢
    omega
  · have d0 := hd 0 (by omega)
    have d1 := hd 1 (by omega)
    have d2 := hd 2 (by omega)
    have d3 := hd 3 (by omega)
    simp [cells, List.range_succ, Nat.ofDigits] at d0 d1 d2 d3 hlt ⊢
    omega

/-- A byte outside `0x80 .. 0xBF` among the followers of a lead byte makes the decode fail. -/
theorem str_to_utf8char_bad_follower (mem : Mem) (s i : Nat) (h1 : 1 ≤ i)
    (h2 : i < deduce_utf8char_size (mem s % 256))
    (hbad : ¬ (0x80 ≤ mem (s + i) % 256 ∧ mem (s + i) % 256 ≤ 0xBF)) :
    str_to_utf8char mem s = UTF8CHAR_MAX := by
  by_contra hne
  obtain ⟨-, -, -, -, hc⟩ := str_to_utf8char_ok mem s hne
  exact hbad ⟨(hc i h1 h2).1, by have := (hc i h1 h2).2; omega⟩

/-! ## Claims about the character codec -/

/-- C1, evaluated at the failing input `c = 0x80`: `utf8char_size` accepts the value with size 2,
`write_utf8char_to_buf` returns 2 and writes the two bytes `0x00 0x80`, and `str_to_utf8char`
applied to those bytes returns `0`, not `0x80`: the character round trip is broken for a value
whose most significant byte is not a lead byte. -/
theorem char_round_trip_fails_at_0x80 :
    utf8char_size 0x80 = 2 ∧ utf8char_size 0x80 ≠ SIZE_MAX ∧
    (write_utf8char_to_buf (memOfList []) 0 0x80).1 = 2 ∧
    cells (write_utf8char_to_buf (memOfList []) 0 0x80).2 0 2 = [0x00, 0x80] ∧
    str_to_utf8char (write_utf8char_to_buf (memOfList []) 0 0x80).2 0 = 0 ∧
    str_to_utf8char (write_utf8char_to_buf (memOfList []) 0 0x80).2 0 ≠ 0x80 := by
  decide

/-- C3, evaluated at the failing input `c = 0x80`: `utf8char_size` returns 2 although the first of
the two packed bytes, `0x00`, is not a lead byte signalling length 2 (`deduce_utf8char_size` gives
1 for it), and the first byte emitted by `write_utf8char_to_buf` predicts 1 byte while 2 are
emitted. -/
theorem utf8char_size_accepts_bad_lead_byte :
    utf8char_size 0x80 = 2 ∧
    deduce_utf8char_size (0x80 / 256 % 256) = 1 ∧
    (write_utf8char_to_buf (memOfList []) 0 0x80).1 = 2 ∧
    deduce_utf8char_size ((write_utf8char_to_buf (memOfList []) 0 0x80).2 0 % 256) = 1 := by
  decide

/-- C7: encode contract of `write_utf8char_to_buf`.  If `utf8char_size c` is the sentinel, the
call returns the sentinel and the memory is unchanged; otherwise it returns
`k = utf8char_size c`, byte `i` of the buffer is byte number `k - 1 - i` of `c` for every
`i < k`, and every cell outside `buf[0 .. k-1]` is unchanged. -/
theorem write_utf8char_to_buf_contract (mem : Mem) (buf c : Nat) :
    (utf8char_size c = SIZE_MAX → write_utf8char_to_buf mem buf c = (SIZE_MAX, mem)) ∧
    (utf8char_size c ≠ SIZE_MAX →
      (write_utf8char_to_buf mem buf c).1 = utf8char_size c ∧
      (∀ i, i < utf8char_size c →
        (write_utf8char_to_buf mem buf c).2 (buf + i)
          = c / 256 ^ (utf8char_size c - 1 - i) % 256) ∧
      (∀ a, (a < buf ∨ buf + utf8char_size c ≤ a) →
        (write_utf8char_to_buf mem buf c).2 a = mem a)) :=
  ⟨write_utf8char_to_buf_invalid mem buf c, write_utf8char_to_buf_valid mem buf c⟩

/-- C7 at concrete inputs: the invalid value `0xFFFFFFFF` and the valid value `0xE282AC`. -/
theorem write_utf8char_to_buf_contract_witness :
    (utf8char_size 0xFFFFFFFF = SIZE_MAX ∧
      write_utf8char_to_buf (memOfList [7, 7, 7]) 0 0xFFFFFFFF = (SIZE_MAX, memOfList [7, 7, 7])) ∧
    (utf8char_size 0xE282AC ≠ SIZE_MAX ∧
      (write_utf8char_to_buf (memOfList [7, 7, 7]) 0 0xE282AC).1 = utf8char_size 0xE282AC ∧
      (∀ i, i < utf8char_size 0xE282AC →
        (write_utf8char_to_buf (memOfList [7, 7, 7]) 0 0xE282AC).2 (0 + i)
          = 0xE282AC / 256 ^ (utf8char_size 0xE282AC - 1 - i) % 256) ∧
      (∀ a, (a < 0 ∨ 0 + utf8char_size 0xE282AC ≤ a) →
        (write_utf8char_to_buf (memOfList [7, 7, 7]) 0 0xE282AC).2 a = memOfList [7, 7, 7] a)) :=
  ⟨⟨by decide, (write_utf8char_to_buf_contract (memOfList [7, 7, 7]) 0 0xFFFFFFFF).1 (by decide)⟩,
    ⟨by decide, (write_utf8char_to_buf_contract (memOfList [7, 7, 7]) 0 0xE282AC).2 (by decide)⟩⟩

/-- C8: decode characterisation of `str_to_utf8char`.  The result differs from the sentinel
exactly when the lead byte predicts a size `k` in `1 .. 4` and each of the bytes `1 .. k-1` lies
in `0x80 .. 0xBF`; the result is then the number whose base-256 digits, most significant first,
are the `k` bytes read; a lead byte predicting 2, 3 or 4 followed by a byte outside
`0x80 .. 0xBF` among its `k - 1` followers yields the sentinel.  `[0x41]` gives `0x41` and
`[0xE2, 0x82, 0xAC]` gives `0xE282AC`. -/
theorem str_to_utf8char_characterisation (mem : Mem) (s : Nat) :
    (str_to_utf8char mem s ≠ UTF8CHAR_MAX ↔
      (deduce_utf8char_size (mem s % 256) = 1 ∨ deduce_utf8char_size (mem s % 256) = 2
        ∨ deduce_utf8char_size (mem s % 256) = 3 ∨ deduce_utf8char_size (mem s % 256) = 4) ∧
      ∀ i, 1 ≤ i → i < deduce_utf8char_size (mem s % 256) →
        0x80 ≤ mem (s + i) % 256 ∧ mem (s + i) % 256 ≤ 0xBF) ∧
    (str_to_utf8char mem s ≠ UTF8CHAR_MAX →
      str_to_utf8char mem s = Nat.ofDigits 256
        (((cells mem s (deduce_utf8char_size (mem s % 256))).map (fun b => b % 256)).reverse)) ∧
    (∀ i, 1 ≤ i → i < deduce_utf8char_size (mem s % 256) →
      ¬ (0x80 ≤ mem (s + i) % 256 ∧ mem (s + i) % 256 ≤ 0xBF) →
      str_to_utf8char mem s = UTF8CHAR_MAX) ∧
    str_to_utf8char (memOfList [0x41]) 0 = 0x00000041 ∧
    str_to_utf8char (memOfList [0xE2, 0x82, 0xAC]) 0 = 0xE282AC := by
  refine ⟨⟨fun h => ?_, fun h => ?_⟩, str_to_utf8char_digits mem s, ?_, by decide, by decide⟩
  · obtain ⟨hk, -, -, -, hc⟩ := str_to_utf8char_ok mem s h
    exact ⟨hk, fun i h1 h2 => ⟨(hc i h1 h2).1, by have := (hc i h1 h2).2; omega⟩⟩
  · exact str_to_utf8char_wf mem s h.1
      (fun i h1 h2 => ⟨(h.2 i h1 h2).1, by have := (h.2 i h1 h2).2; omega⟩)
  · exact fun i h1 h2 hbad => str_to_utf8char_bad_follower mem s i h1 h2 hbad

/-- C8 at concrete inputs: the euro sign decodes to the big-endian value of its three bytes, and
the lead byte `0xE2` followed by the malformed byte `0x41` yields the sentinel. -/
theorem str_to_utf8char_characterisation_witness :
    (str_to_utf8char (memOfList [0xE2, 0x82, 0xAC]) 0 ≠ UTF8CHAR_MAX ∧
      str_to_utf8char (memOfList [0xE2, 0x82, 0xAC]) 0 = Nat.ofDigits 256
        (((cells (memOfList [0xE2, 0x82, 0xAC]) 0
          (deduce_utf8char_size (memOfList [0xE2, 0x82, 0xAC] 0 % 256))).map
            (fun b => b % 256)).reverse)) ∧
    (¬ (0x80 ≤ memOfList [0xE2, 0x41, 0xAC] (0 + 1) % 256
        ∧ memOfList [0xE2, 0x41, 0xAC] (0 + 1) % 256 ≤ 0xBF) ∧
      str_to_utf8char (memOfList [0xE2, 0x41, 0xAC]) 0 = UTF8CHAR_MAX) :=
  ⟨⟨by decide,
      (str_to_utf8char_characterisation (memOfList [0xE2, 0x82, 0xAC]) 0).2.1 (by decide)⟩,
    ⟨by decide,
      (str_to_utf8char_characterisation (memOfList [0xE2, 0x41, 0xAC]) 0).2.2.1 1 (by decide)
        (by decide) (by decide)⟩⟩

/-- C9 as stated is false: `[0x41]` decodes successfully (one byte) to `0x00000041`, whose top
byte (bits 31..24) is `0`, not the lead byte `0x41`, and whose three low bytes are not zero. -/
theorem packed_layout_not_left_aligned :
    str_to_utf8char (memOfList [0x41]) 0 ≠ UTF8CHAR_MAX ∧
    deduce_utf8char_size (memOfList [0x41] 0 % 256) = 1 ∧
    str_to_utf8char (memOfList [0x41]) 0 / 2 ^ 24 % 256 ≠ memOfList [0x41] 0 % 256 ∧
    str_to_utf8char (memOfList [0x41]) 0 % 256 ^ (4 - 1) ≠ 0 := by
  decide

/-- C9, amended: a successful decode of `k` bytes packs them right-aligned, most significant
byte first: the lead byte is byte number `k - 1` of `c`, byte `i` read is byte number
`k - 1 - i` of `c`, and the `4 - k` unused high bytes of `c` are zero (`c < 256 ^ k`). -/
theorem packed_layout_right_aligned (mem : Mem) (s : Nat)
    (h : str_to_utf8char mem s ≠ UTF8CHAR_MAX) :
    str_to_utf8char mem s / 256 ^ (deduce_utf8char_size (mem s % 256) - 1) % 256
      = mem s % 256 ∧
    (∀ i, i < deduce_utf8char_size (mem s % 256) →
      str_to_utf8char mem s / 256 ^ (deduce_utf8char_size (mem s % 256) - 1 - i) % 256
        = mem (s + i) % 256) ∧
    str_to_utf8char mem s / 256 ^ deduce_utf8char_size (mem s % 256) = 0 := by
  obtain ⟨hk, -, hlt, hd, -⟩ := str_to_utf8char_ok mem s h
  refine ⟨?_, hd, Nat.div_eq_of_lt hlt⟩
  have h0 := hd 0 (by rcases hk with hk | hk | hk | hk <;> omega)
  simpa using h0

/-- C9 amended, at the euro sign: `0xE282AC` has lead byte `0xE2` as its byte number 2 and a zero
top byte. -/
theorem packed_layout_right_aligned_witness :
    str_to_utf8char (memOfList [0xE2, 0x82, 0xAC]) 0 ≠ UTF8CHAR_MAX ∧
    (str_to_utf8char (memOfList [0xE2, 0x82, 0xAC]) 0
        / 256 ^ (deduce_utf8char_size (memOfList [0xE2, 0x82, 0xAC] 0 % 256) - 1) % 256
      = memOfList [0xE2, 0x82, 0xAC] 0 % 256 ∧
    (∀ i, i < deduce_utf8char_size (memOfList [0xE2, 0x82, 0xAC] 0 % 256) →
      str_to_utf8char (memOfList [0xE2, 0x82, 0xAC]) 0
          / 256 ^ (deduce_utf8char_size (memOfList [0xE2, 0x82, 0xAC] 0 % 256) - 1 - i) % 256
        = memOfList [0xE2, 0x82, 0xAC] (0 + i) % 256) ∧
    str_to_utf8char (memOfList [0xE2, 0x82, 0xAC]) 0
      / 256 ^ deduce_utf8char_size (memOfList [0xE2, 0x82, 0xAC] 0 % 256) = 0) :=
  ⟨by decide, packed_layout_right_aligned (memOfList [0xE2, 0x82, 0xAC]) 0 (by decide)⟩

/-- C10: decode-then-encode round trip.  When `str_to_utf8char` succeeds with result `c` and
`k` is the size predicted by the lead byte, `utf8char_size c = k`, and
`write_utf8char_to_buf` on `c` returns `k`, writes exactly the `k` bytes that were read, and
changes no other cell. -/
theorem decode_then_encode (mem : Mem) (s : Nat) (out : Mem) (buf : Nat)
    (h : str_to_utf8char mem s ≠ UTF8CHAR_MAX) :
    utf8char_size (str_to_utf8char mem s) = deduce_utf8char_size (mem s % 256) ∧
    (write_utf8char_to_buf out buf (str_to_utf8char mem s)).1
      = deduce_utf8char_size (mem s % 256) ∧
    (∀ i, i < deduce_utf8char_size (mem s % 256) →
      (write_utf8char_to_buf out buf (str_to_utf8char mem s)).2 (buf + i) = mem (s + i) % 256) ∧
    (∀ a, (a < buf ∨ buf + deduce_utf8char_size (mem s % 256) ≤ a) →
      (write_utf8char_to_buf out buf (str_to_utf8char mem s)).2 a = out a) := by
  obtain ⟨hk, hsz, -, hd, -⟩ := str_to_utf8char_ok mem s h
  have hne : utf8char_size (str_to_utf8char mem s) ≠ SIZE_MAX := by
    rw [hsz, SIZE_MAX_val]
    rcases hk with hk | hk | hk | hk <;> omega
  obtain ⟨w1, w2, w3⟩ := write_utf8char_to_buf_valid out buf (str_to_utf8char mem s) hne
  rw [hsz] at w1 w2 w3
  exact ⟨hsz, w1, fun i hi => (w2 i hi).trans (hd i hi), w3⟩

/-- C10 at the euro sign: `[0xE2, 0x82, 0xAC]` predicts 3, decodes to `0xE282AC`, which has size
3 and re-encodes to the same three bytes. -/
theorem decode_then_encode_witness :
    (str_to_utf8char (memOfList [0xE2, 0x82, 0xAC]) 0 ≠ UTF8CHAR_MAX ∧
      deduce_utf8char_size (memOfList [0xE2, 0x82, 0xAC] 0 % 256) = 3 ∧
      str_to_utf8char (memOfList [0xE2, 0x82, 0xAC]) 0 = 0xE282AC ∧
      cells (write_utf8char_to_buf (memOfList []) 0 0xE282AC).2 0 3 = [0xE2, 0x82, 0xAC]) ∧
    (utf8char_size (str_to_utf8char (memOfList [0xE2, 0x82, 0xAC]) 0)
        = deduce_utf8char_size (memOfList [0xE2, 0x82, 0xAC] 0 % 256) ∧
      (write_utf8char_to_buf (memOfList []) 0
          (str_to_utf8char (memOfList [0xE2, 0x82, 0xAC]) 0)).1
        = deduce_utf8char_size (memOfList [0xE2, 0x82, 0xAC] 0 % 256) ∧
      (∀ i, i < deduce_utf8char_size (memOfList [0xE2, 0x82, 0xAC] 0 % 256) →
        (write_utf8char_to_buf (memOfList []) 0
            (str_to_utf8char (memOfList [0xE2, 0x82, 0xAC]) 0)).2 (0 + i)
          = memOfList [0xE2, 0x82, 0xAC] (0 + i) % 256) ∧
      (∀ a, (a < 0 ∨ 0 + deduce_utf8char_size (memOfList [0xE2, 0x82, 0xAC] 0 % 256) ≤ a) →
        (write_utf8char_to_buf (memOfList []) 0
            (str_to_utf8char (memOfList [0xE2, 0x82, 0xAC]) 0)).2 a = memOfList [] a)) :=
  ⟨by decide, decode_then_encode (memOfList [0xE2, 0x82, 0xAC]) 0 (memOfList []) 0 (by decide)⟩

/-! ## Well-formed characters -/

theorem size_inv (c : Nat) :
    (utf8char_size c = 1 → c < 128) ∧
    (utf8char_size c = 2 → 128 ≤ c ∧ c < 57344 ∧ 128 ≤ c % 256 ∧ c % 256 < 192) ∧
    (utf8char_size c = 3 → 57344 ≤ c ∧ c < 15728640 ∧ (128 ≤ c % 256 ∧ c % 256 < 192)
      ∧ (128 ≤ c / 256 % 256 ∧ c / 256 % 256 < 192)) ∧
    (utf8char_size c = 4 → 15728640 ≤ c ∧ c < 4160749568 ∧ (128 ≤ c % 256 ∧ c % 256 < 192)
      ∧ (128 ≤ c / 256 % 256 ∧ c / 256 % 256 < 192)
      ∧ (128 ≤ c / 65536 % 256 ∧ c / 65536 % 256 < 192)) := by
  rw [utf8char_size_arith, SIZE_MAX_val]
  split_ifs <;> refine ⟨?_, ?_, ?_, ?_⟩ <;> intro h <;> omega

/-- Decoding the bytes of a well-formed character gives the character back, and its first byte
predicts its size. -/
theorem str_to_utf8char_of_bytes (mem : Mem) (p c : Nat) (hwf : well_formed c)
    (hb : ∀ j, j < utf8char_size c → mem (p + j) % 256 = c / 256 ^ (utf8char_size c - 1 - j) % 256) :
    deduce_utf8char_size (mem p % 256) = utf8char_size c ∧ str_to_utf8char mem p = c := by
  obtain ⟨hne, hlead⟩ := hwf
  obtain ⟨s1, s2, s3, s4⟩ := size_inv c
  rw [SIZE_MAX_val] at hne
  rcases utf8char_size_cases c with hk | hk | hk | hk | hk
  · rw [hk] at hb hlead ⊢
    have b0 := hb 0 (by omega)
    have := s1 hk
    simp at b0
    have e0 : mem p % 256 = c := by omega
    rw [str_to_utf8char_one _ _ (by omega), e0]
    exact ⟨deduce_eq_1 _ (by omega), rfl⟩
  · rw [hk] at hb hlead ⊢
    have b0 := hb 0 (by omega)
    have b1 := hb 1 (by omega)
    obtain ⟨r1, r2⟩ := (deduce_inv _).2.1 hlead
    have := s2 hk
    simp at b0 b1 r1 r2
    rw [str_to_utf8char_two _ _ (by omega) (by omega), if_pos (by omega)]
    exact ⟨deduce_eq_2 _ (by omega) (by omega), by omega⟩
  · rw [hk] at hb hlead ⊢
    have b0 := hb 0 (by omega)
    have b1 := hb 1 (by omega)
    have b2 := hb 2 (by omega)
    obtain ⟨r1, r2⟩ := (deduce_inv _).2.2.1 hlead
    have := s3 hk
    simp at b0 b1 b2 r1 r2
    rw [str_to_utf8char_three _ _ (by omega) (by omega), if_pos (by omega)]
    exact ⟨deduce_eq_3 _ (by omega) (by omega), by omega⟩
  · rw [hk] at hb hlead ⊢
    have b0 := hb 0 (by omega)
    have b1 := hb 1 (by omega)
    have b2 := hb 2 (by omega)
    have b3 := hb 3 (by omega)
    obtain ⟨r1, r2⟩ := (deduce_inv _).2.2.2 hlead
    have := s4 hk
    simp at b0 b1 b2 b3 r1 r2
    rw [str_to_utf8char_four _ _ (by omega) (by omega), if_pos (by omega)]
    exact ⟨deduce_eq_4 _ (by omega) (by omega), by omega⟩
  · rw [hk, SIZE_MAX_val] at hne
    exact absurd rfl hne

/-! ## The scan of `read_buf_to_utf8str` -/

/-- With more fuel than bytes left the scan returns, and what it returns is at most `bufsize`. -/
theorem read_loop_returns (s : Nat) (mem : Mem) (buf bufsize : Nat) :
    ∀ (fuel i : Nat) (smem : Mem) (cc : Nat), i ≤ bufsize → bufsize - i < fuel →
      ∃ r smem1, read_buf_to_utf8str_loop s mem buf bufsize fuel i smem cc = some (r, smem1)
        ∧ r ≤ bufsize := by
  intro fuel
  induction fuel with
  | zero => intro i smem cc _ h; omega
  | succ fuel ih =>
    intro i smem cc hi hf
    simp only [read_buf_to_utf8str_loop]
    split_ifs with h1 h2 h3 h4
    · exact ⟨i, smem, rfl, hi⟩
    · exact ⟨i, smem, rfl, hi⟩
    · exact ⟨bufsize, _, rfl, le_refl _⟩
    · have hd : deduce_utf8char_size (mem (buf + i) % 256) ≠ 0 := fun h => h2 (Or.inl h)
      have hle : i + deduce_utf8char_size (mem (buf + i) % 256) ≤ bufsize := by
        by_contra hgt
        exact h2 (Or.inr (Or.inr (by omega)))
      exact ih _ _ _ hle (by omega)
    · exact ⟨bufsize, smem, rfl, le_refl _⟩

/-- C5: `read_buf_to_utf8str` never signals failure.  For every byte memory, buffer address and
`bufsize` smaller than the maximum `size_t` value the call returns, and the returned value is at
most `bufsize` and is not the sentinel `(size_t) -1`. -/
theorem read_buf_to_utf8str_never_fails (smem : Mem) (s : Nat) (mem : Mem) (buf bufsize : Nat)
    (h : bufsize < SIZE_MAX) :
    ∃ r smem1, read_buf_to_utf8str smem s mem buf bufsize = some (r, smem1)
      ∧ r ≤ bufsize ∧ r ≠ SIZE_MAX := by
  obtain ⟨r, smem1, h1, h2⟩ :=
    read_loop_returns s mem buf bufsize (bufsize + 1) 0 smem 0 (Nat.zero_le _) (by omega)
  exact ⟨r, smem1, h1, h2, by omega⟩

/-- C5 at the lone continuation byte `[0x80]` with `bufsize = 1`. -/
theorem read_buf_to_utf8str_never_fails_witness :
    1 < SIZE_MAX ∧
    ∃ r smem1, read_buf_to_utf8str (memOfList []) 0 (memOfList [0x80]) 0 1 = some (r, smem1)
      ∧ r ≤ 1 ∧ r ≠ SIZE_MAX :=
  ⟨by decide, read_buf_to_utf8str_never_fails (memOfList []) 0 (memOfList [0x80]) 0 1 (by decide)⟩

/-- C4, evaluated at the failing input `buf = [0x00, 0x41]`, `bufsize = 2`: the scan decodes the
zero character at offset 0, stores it, stops, and returns `bufsize = 2`, not the `0 + 1 = 1`
bytes consumed; the byte after the terminator is never decoded. -/
theorem read_buf_to_utf8str_terminator_returns_bufsize :
    str_to_utf8char (memOfList [0x00, 0x41]) 0 = 0 ∧
    (read_buf_to_utf8str (memOfList [9, 9]) 0 (memOfList [0x00, 0x41]) 0 2).map Prod.fst
      = some 2 ∧
    (read_buf_to_utf8str (memOfList [9, 9]) 0 (memOfList [0x00, 0x41]) 0 2).map
      (fun r => cells r.2 0 2) = some [0, 9] := by
  decide

/-- C2, evaluated at the failing input `S = [0x80, 0]`: every character before the terminator
has a size (`utf8char_size 0x80 = 2`), `write_utf8str_to_buf` returns 3 and writes the bytes
`0x00 0x80 0x00`, and `read_buf_to_utf8str` on the written bytes with `bufsize = 3` stores a
terminator in the first cell and nothing else: the sequence read back is empty, not `S`. -/
theorem str_round_trip_fails_at_0x80 :
    utf8char_size 0x80 ≠ SIZE_MAX ∧
    (write_utf8str_to_buf (memOfList []) 0 [0x80, 0]).map (fun w => (w.1, cells w.2 0 3))
      = some (3, [0x00, 0x80, 0x00]) ∧
    ((write_utf8str_to_buf (memOfList []) 0 [0x80, 0]).bind
        (fun w => read_buf_to_utf8str (memOfList [9, 9]) 0 w.2 0 w.1)).map
      (fun r => (r.1, cells r.2 0 2)) = some (3, [0, 9]) := by
  decide

/-! ## Scanning a prefix of well-formed characters -/

theorem storeList_outside (cs : List Nat) :
    ∀ (a : Nat) (mem : Mem) (x : Nat), (x < a ∨ a + cs.length ≤ x) →
      storeList mem a cs x = mem x := by
  induction cs with
  | nil => intro a mem x _; rfl
  | cons c cs ih =>
    intro a mem x hx
    simp only [storeList, List.length_cons] at hx ⊢
    rw [ih (a + 1) _ x (by omega), store_other _ _ _ _ (by omega)]

theorem storeList_inside (cs : List Nat) :
    ∀ (a : Nat) (mem : Mem) (j : Nat), j < cs.length →
      storeList mem a cs (a + j) = cs.getD j 0 := by
  induction cs with
  | nil => intro a mem j hj; simp at hj
  | cons c cs ih =>
    intro a mem j hj
    simp only [storeList]
    cases j with
    | zero =>
      rw [storeList_outside cs (a + 1) _ _ (Or.inl (by omega))]
      simp [store_same]
    | succ j =>
      have e : a + (j + 1) = a + 1 + j := by omega
      rw [e, ih (a + 1) _ j (by simpa using hj)]
      simp

theorem encoded_char_valid (c : Nat) (h : utf8char_size c ≠ SIZE_MAX) :
    encoded_char c
      = (List.range (utf8char_size c)).map (fun j => c / 256 ^ (utf8char_size c - 1 - j) % 256) := by
  obtain ⟨w1, w2, -⟩ := write_utf8char_to_buf_valid (fun _ => 0) 0 c h
  unfold encoded_char cells
  simp only [w1, if_neg h]
  apply List.map_congr_left
  intro j hj
  exact w2 j (List.mem_range.mp hj)

theorem valid_lt (c : Nat) (h : utf8char_size c ≠ SIZE_MAX) :
    c < 4160749568 ∧ 1 ≤ utf8char_size c ∧ utf8char_size c ≤ 4 := by
  obtain ⟨s1, s2, s3, s4⟩ := size_inv c
  rcases utf8char_size_cases c with hk | hk | hk | hk | hk
  · have := s1 hk; omega
  · have := s2 hk; omega
  · have := s3 hk; omega
  · have := s4 hk; omega
  · exact absurd hk h

/-- The scan over the encodings of well-formed non-zero characters: one iteration per
character, each stored in the next output cell. -/
theorem read_loop_chars (s : Nat) (mem : Mem) (buf bufsize : Nat) :
    ∀ (cs : List Nat) (f i : Nat) (smem : Mem) (cc : Nat),
      (∀ c, c ∈ cs → c ≠ 0 ∧ well_formed c) →
      (∀ j, j < (encoded_chars cs).length →
        mem (buf + i + j) % 256 = (encoded_chars cs).getD j 0) →
      i + (encoded_chars cs).length ≤ bufsize →
      read_buf_to_utf8str_loop s mem buf bufsize (cs.length + f) i smem cc
        = read_buf_to_utf8str_loop s mem buf bufsize f (i + (encoded_chars cs).length)
            (storeList smem (s + cc) cs) (cc + cs.length) := by
  intro cs
  induction cs with
  | nil => intro f i smem cc _ _ _; simp [encoded_chars, storeList]
  | cons c rest ih =>
    intro f i smem cc hwf hbytes hfit
    obtain ⟨hc0, hcwf⟩ := hwf c (List.mem_cons_self _ _)
    obtain ⟨hlt, hk1, hk4⟩ := valid_lt c hcwf.1
    have henc := encoded_char_valid c hcwf.1
    have hlen : (encoded_char c).length = utf8char_size c := by rw [henc]; simp
    simp only [encoded_chars, List.length_append, hlen] at hbytes hfit ⊢
    have hb : ∀ j, j < utf8char_size c →
        mem (buf + i + j) % 256 = c / 256 ^ (utf8char_size c - 1 - j) % 256 := by
      intro j hj
      rw [hbytes j (by omega), List.getD_append _ _ _ _ (by omega), henc]
      simp [List.getD_eq_getElem?_getD, hj]
    obtain ⟨hd, hs⟩ := str_to_utf8char_of_bytes mem (buf + i) c hcwf hb
    have hfuel : (c :: rest).length + f = (rest.length + f) + 1 := by
      simp only [List.length_cons]; omega
    rw [hfuel]
    simp only [read_buf_to_utf8str_loop, hd, hs]
    rw [if_pos (by omega), if_neg (by rw [SIZE_MAX_val]; omega),
      if_neg (by rw [UTF8CHAR_MAX_val]; omega), if_neg hc0]
    rw [ih f (i + utf8char_size c) (store smem (s + cc) c) (cc + 1)
      (fun x hx => hwf x (List.mem_cons_of_mem _ hx)) ?_ (by omega)]
    · simp only [storeList, List.length_cons]
      have e1 : i + utf8char_size c + (encoded_chars rest).length
          = i + (utf8char_size c + (encoded_chars rest).length) := by omega
      have e2 : cc + 1 + rest.length = cc + (rest.length + 1) := by omega
      have e3 : s + (cc + 1) = s + cc + 1 := by omega
      rw [e1, e2, e3]
    · intro j hj
      have e := hbytes (utf8char_size c + j) (by omega)
      have e4 : buf + i + (utf8char_size c + j) = buf + (i + utf8char_size c) + j := by omega
      rw [e4] at e
      rw [e, List.getD_append_right _ _ _ _ (by omega), hlen]
      congr 1
      omega

theorem cells_map_getD (mem : Mem) (p n j : Nat) (f : Nat → Nat) (h : j < n) :
    ((cells mem p n).map f).getD j 0 = f (mem (p + j)) := by
  simp [cells, List.getD_eq_getElem?_getD, h]

theorem cells_storeList (smem : Mem) (s : Nat) (cs : List Nat) :
    cells (storeList smem s cs) s cs.length = cs := by
  apply List.ext_getElem
  · simp [cells]
  · intro j h1 h2
    simp only [cells, List.getElem_map, List.getElem_range]
    rw [storeList_inside cs s smem j h2, List.getD_eq_getElem?_getD, List.getElem?_eq_getElem h2]
    rfl

theorem length_le_encoded (cs : List Nat) (h : ∀ c, c ∈ cs → c ≠ 0 ∧ well_formed c) :
    cs.length ≤ (encoded_chars cs).length := by
  induction cs with
  | nil => simp
  | cons c rest ih =>
    obtain ⟨-, hcwf⟩ := h c (List.mem_cons_self _ _)
    obtain ⟨-, hk1, -⟩ := valid_lt c hcwf.1
    have hlen : (encoded_char c).length = utf8char_size c := by
      rw [encoded_char_valid c hcwf.1]; simp
    have := ih (fun x hx => h x (List.mem_cons_of_mem _ hx))
    simp only [encoded_chars, List.length_append, List.length_cons, hlen]
    omega

/-- One iteration of the scan at an offending byte returns the offset of that byte and stores
nothing. -/
theorem read_loop_offending (s : Nat) (mem : Mem) (buf bufsize f n : Nat) (smem : Mem)
    (cc : Nat) (hn : n < bufsize)
    (hbad : (0x80 ≤ mem (buf + n) % 256 ∧ mem (buf + n) % 256 ≤ 0xBF)
      ∨ 0xF8 ≤ mem (buf + n) % 256
      ∨ bufsize < n + deduce_utf8char_size (mem (buf + n) % 256)
      ∨ ∃ i, 1 ≤ i ∧ i < deduce_utf8char_size (mem (buf + n) % 256)
          ∧ ¬ (0x80 ≤ mem (buf + n + i) % 256 ∧ mem (buf + n + i) % 256 ≤ 0xBF)) :
    read_buf_to_utf8str_loop s mem buf bufsize (f + 1) n smem cc = some (n, smem) := by
  simp only [read_buf_to_utf8str_loop]
  rw [if_pos hn]
  by_cases hg : deduce_utf8char_size (mem (buf + n) % 256) = 0
      ∨ deduce_utf8char_size (mem (buf + n) % 256) = SIZE_MAX
      ∨ n + deduce_utf8char_size (mem (buf + n) % 256) > bufsize
  · rw [if_pos hg]
  · rw [if_neg hg]
    have hmax : str_to_utf8char mem (buf + n) = UTF8CHAR_MAX := by
      rcases hbad with ⟨h1, h2⟩ | h1 | h1 | ⟨i, h1, h2, h3⟩
      · exact absurd (Or.inl (deduce_eq_0 _ (by omega) (by omega))) hg
      · exact absurd (Or.inr (Or.inl (deduce_eq_max _ (by omega)))) hg
      · exact absurd (Or.inr (Or.inr h1)) hg
      · exact str_to_utf8char_bad_follower mem (buf + n) i h1 h2 h3
    rw [if_pos hmax]

/-! ## Claims about the string decoder -/

/-- C6: early stop of `read_buf_to_utf8str` at the first offending byte.  If the buffer starts
with the encodings of the well-formed non-zero characters `cs`, occupying `n` bytes, and at
offset `n < bufsize` there is a continuation byte (`0x80 .. 0xBF`), an illegal lead byte
(`>= 0xF8`), a lead byte whose predicted length overruns `bufsize`, or a lead byte with a byte
outside `0x80 .. 0xBF` among its followers, then the call returns exactly `n`, the output holds
exactly the characters `cs` in its first cells, and every other output cell is unchanged. -/
theorem read_buf_to_utf8str_early_stop (smem : Mem) (s : Nat) (mem : Mem) (buf bufsize : Nat)
    (cs : List Nat)
    (hwf : ∀ c, c ∈ cs → c ≠ 0 ∧ well_formed c)
    (hpre : (cells mem buf (encoded_chars cs).length).map (fun b => b % 256) = encoded_chars cs)
    (hn : (encoded_chars cs).length < bufsize)
    (hbad : (0x80 ≤ mem (buf + (encoded_chars cs).length) % 256
        ∧ mem (buf + (encoded_chars cs).length) % 256 ≤ 0xBF)
      ∨ 0xF8 ≤ mem (buf + (encoded_chars cs).length) % 256
      ∨ bufsize < (encoded_chars cs).length
          + deduce_utf8char_size (mem (buf + (encoded_chars cs).length) % 256)
      ∨ ∃ i, 1 ≤ i ∧ i < deduce_utf8char_size (mem (buf + (encoded_chars cs).length) % 256)
          ∧ ¬ (0x80 ≤ mem (buf + (encoded_chars cs).length + i) % 256
            ∧ mem (buf + (encoded_chars cs).length + i) % 256 ≤ 0xBF)) :
    ∃ smem1, read_buf_to_utf8str smem s mem buf bufsize
        = some ((encoded_chars cs).length, smem1)
      ∧ cells smem1 s cs.length = cs
      ∧ ∀ a, (a < s ∨ s + cs.length ≤ a) → smem1 a = smem a := by
  have hlen := length_le_encoded cs hwf
  have hbytes : ∀ j, j < (encoded_chars cs).length →
      mem (buf + 0 + j) % 256 = (encoded_chars cs).getD j 0 := by
    intro j hj
    have e := cells_map_getD mem buf (encoded_chars cs).length j (fun b => b % 256) hj
    rw [hpre] at e
    rw [Nat.add_zero, e]
  have hfuel : bufsize + 1 = cs.length + ((bufsize - cs.length) + 1) := by omega
  refine ⟨storeList smem s cs, ?_, cells_storeList smem s cs,
    fun a ha => storeList_outside cs s smem a ha⟩
  unfold read_buf_to_utf8str
  rw [hfuel, read_loop_chars s mem buf bufsize cs _ 0 smem 0 hwf hbytes (by omega)]
  simp only [Nat.zero_add, Nat.add_zero]
  exact read_loop_offending s mem buf bufsize _ _ _ _ hn hbad

/-- C6 at concrete inputs: the lone continuation byte `[0x80]` with `bufsize = 1` returns 0, the
truncated `[0xE2, 0x82]` with `bufsize = 2` returns 0, and `[0x41, 0xC3, 0xA9, 0xE2, 0x41, 0x80]`
with `bufsize = 6` returns 3 after storing the two characters `0x41` and `0xC3A9`. -/
theorem read_buf_to_utf8str_early_stop_witness :
    ((read_buf_to_utf8str (memOfList []) 0 (memOfList [0x80]) 0 1).map Prod.fst = some 0 ∧
      (read_buf_to_utf8str (memOfList []) 0 (memOfList [0xE2, 0x82]) 0 2).map Prod.fst
        = some 0) ∧
    (∃ smem1, read_buf_to_utf8str (memOfList []) 0 (memOfList [0x80]) 0 1 = some (0, smem1)
      ∧ cells smem1 0 0 = []
      ∧ ∀ a, (a < 0 ∨ 0 + 0 ≤ a) → smem1 a = memOfList [] a) ∧
    (∃ smem1, read_buf_to_utf8str (memOfList []) 0 (memOfList [0xE2, 0x82]) 0 2
        = some (0, smem1)
      ∧ cells smem1 0 0 = []
      ∧ ∀ a, (a < 0 ∨ 0 + 0 ≤ a) → smem1 a = memOfList [] a) ∧
    (∃ smem1, read_buf_to_utf8str (memOfList [])  0
        (memOfList [0x41, 0xC3, 0xA9, 0xE2, 0x41, 0x80]) 0 6 = some (3, smem1)
      ∧ cells smem1 0 2 = [0x41, 0xC3A9]
      ∧ ∀ a, (a < 0 ∨ 0 + 2 ≤ a) → smem1 a = memOfList [] a) :=
  ⟨by decide,
    read_buf_to_utf8str_early_stop (memOfList []) 0 (memOfList [0x80]) 0 1 []
      (by decide) (by decide) (by decide) (Or.inl (by decide)),
    read_buf_to_utf8str_early_stop (memOfList []) 0 (memOfList [0xE2, 0x82]) 0 2 []
      (by decide) (by decide) (by decide) (Or.inr (Or.inr (Or.inl (by decide)))),
    read_buf_to_utf8str_early_stop (memOfList []) 0
      (memOfList [0x41, 0xC3, 0xA9, 0xE2, 0x41, 0x80]) 0 6 [0x41, 0xC3A9]
      (by decide) (by decide) (by decide)
      (Or.inr (Or.inr (Or.inr ⟨1, by decide, by decide, by decide⟩)))⟩

/-! ## Claims about the classification functions -/

/-- C16: classification table of `deduce_utf8char_size`.  For every byte `b` the result is 1 if
`b < 128`, 0 if `128 <= b < 192`, 2 if `192 <= b < 224`, 3 if `224 <= b < 240`, 4 if
`240 <= b < 248` and the sentinel `(size_t) -1` if `b >= 248`; and for every `b < 128`,
`deduce_utf8char_size b = 1 = utf8char_size b`. -/
theorem deduce_utf8char_size_table (b : Nat) :
    (b < 128 → deduce_utf8char_size b = 1) ∧
    (128 ≤ b → b < 192 → deduce_utf8char_size b = 0) ∧
    (192 ≤ b → b < 224 → deduce_utf8char_size b = 2) ∧
    (224 ≤ b → b < 240 → deduce_utf8char_size b = 3) ∧
    (240 ≤ b → b < 248 → deduce_utf8char_size b = 4) ∧
    (248 ≤ b → deduce_utf8char_size b = SIZE_MAX) ∧
    (b < 128 → deduce_utf8char_size b = 1 ∧ utf8char_size b = 1) :=
  ⟨deduce_eq_1 b, deduce_eq_0 b, deduce_eq_2 b, deduce_eq_3 b, deduce_eq_4 b, deduce_eq_max b,
    fun h => ⟨deduce_eq_1 b h, size_one b h⟩⟩

/-- C16 at one byte of each class: `0x41`, `0x80`, `0xC3`, `0xE2`, `0xF0`, `0xFF`. -/
theorem deduce_utf8char_size_table_witness :
    (0x41 < 128 ∧ deduce_utf8char_size 0x41 = 1 ∧ utf8char_size 0x41 = 1) ∧
    (128 ≤ 0x80 ∧ 0x80 < 192 ∧ deduce_utf8char_size 0x80 = 0) ∧
    (192 ≤ 0xC3 ∧ 0xC3 < 224 ∧ deduce_utf8char_size 0xC3 = 2) ∧
    (224 ≤ 0xE2 ∧ 0xE2 < 240 ∧ deduce_utf8char_size 0xE2 = 3) ∧
    (240 ≤ 0xF0 ∧ 0xF0 < 248 ∧ deduce_utf8char_size 0xF0 = 4) ∧
    (248 ≤ 0xFF ∧ deduce_utf8char_size 0xFF = SIZE_MAX) :=
  ⟨⟨by decide, (deduce_utf8char_size_table 0x41).2.2.2.2.2.2 (by decide)⟩,
    ⟨by decide, by decide, (deduce_utf8char_size_table 0x80).2.1 (by decide) (by decide)⟩,
    ⟨by decide, by decide, (deduce_utf8char_size_table 0xC3).2.2.1 (by decide) (by decide)⟩,
    ⟨by decide, by decide, (deduce_utf8char_size_table 0xE2).2.2.2.1 (by decide) (by decide)⟩,
    ⟨by decide, by decide, (deduce_utf8char_size_table 0xF0).2.2.2.2.1 (by decide) (by decide)⟩,
    ⟨by decide, (deduce_utf8char_size_table 0xFF).2.2.2.2.2.1 (by decide)⟩⟩

/-- C17: numeric boundaries of `utf8char_size`.  The result is one of 1, 2, 3, 4 or the
sentinel; it is 1 exactly when `c < 128`; it is 2 only if `128 <= c < 57344`, 3 only if
`57344 <= c < 15728640`, 4 only if `15728640 <= c < 4160749568`; every `c >= 4160749568` gives
the sentinel; 127 gives 1 and `0xFFFFFFFF` gives the sentinel. -/
theorem utf8char_size_boundaries (c : Nat) :
    (utf8char_size c = 1 ∨ utf8char_size c = 2 ∨ utf8char_size c = 3 ∨ utf8char_size c = 4
      ∨ utf8char_size c = SIZE_MAX) ∧
    (utf8char_size c = 1 ↔ c < 128) ∧
    (utf8char_size c = 2 → 128 ≤ c ∧ c < 57344) ∧
    (utf8char_size c = 3 → 57344 ≤ c ∧ c < 15728640) ∧
    (utf8char_size c = 4 → 15728640 ≤ c ∧ c < 4160749568) ∧
    (4160749568 ≤ c → utf8char_size c = SIZE_MAX) ∧
    utf8char_size 127 = 1 ∧ utf8char_size 0xFFFFFFFF = SIZE_MAX := by
  obtain ⟨s1, s2, s3, s4⟩ := size_inv c
  refine ⟨utf8char_size_cases c, ⟨s1, size_one c⟩, fun h => ⟨(s2 h).1, (s2 h).2.1⟩,
    fun h => ⟨(s3 h).1, (s3 h).2.1⟩, fun h => ⟨(s4 h).1, (s4 h).2.1⟩, ?_, by decide, by decide⟩
  intro h
  rcases utf8char_size_cases c with hk | hk | hk | hk | hk
  · have := s1 hk; omega
  · have := s2 hk; omega
  · have := s3 hk; omega
  · have := s4 hk; omega
  · exact hk

/-- C17 at the euro sign `0xE282AC` (size 3, inside the 3-byte range) and at `0xF8000000`, the
first value above the 4-byte range. -/
theorem utf8char_size_boundaries_witness :
    (utf8char_size 0xE282AC = 3 ∧ 57344 ≤ 0xE282AC ∧ 0xE282AC < 15728640) ∧
    (4160749568 ≤ 0xF8000000 ∧ utf8char_size 0xF8000000 = SIZE_MAX) :=
  ⟨⟨by decide, (utf8char_size_boundaries 0xE282AC).2.2.2.1 (by decide)⟩,
    ⟨by decide, (utf8char_size_boundaries 0xF8000000).2.2.2.2.2.1 (by decide)⟩⟩

/-! ## Splitting a sequence at its first zero or first invalid character -/

theorem first_split (P : Nat → Prop) [DecidablePred P] (l : List Nat)
    (h : ∃ c, c ∈ l ∧ P c) :
    ∃ v x w, l = v ++ x :: w ∧ P x ∧ ∀ c, c ∈ v → ¬ P c := by
  induction l with
  | nil => obtain ⟨c, hc, -⟩ := h; simp at hc
  | cons a l ih =>
    by_cases ha : P a
    · exact ⟨[], a, l, rfl, ha, fun c hc => by simp at hc⟩
    · obtain ⟨c, hc, hp⟩ := h
      have hc2 : c ∈ l := by
        rcases List.mem_cons.mp hc with e | e
        · exact absurd (e ▸ hp) ha
        · exact e
      obtain ⟨v, x, w, e, hx, hv⟩ := ih ⟨c, hc2, hp⟩
      refine ⟨a :: v, x, w, by rw [e]; rfl, hx, ?_⟩
      intro d hd
      rcases List.mem_cons.mp hd with e2 | e2
      · rw [e2]; exact ha
      · exact hv d e2

theorem utf8str_len_loop_split (rest : List Nat) :
    ∀ (pre : List Nat) (k : Nat), (∀ c, c ∈ pre → c ≠ 0) →
      utf8str_len_loop (pre ++ 0 :: rest) k = some (k + pre.length) := by
  intro pre
  induction pre with
  | nil => intro k _; simp [utf8str_len_loop]
  | cons c pre ih =>
    intro k h
    have hc : c ≠ 0 := h c (List.mem_cons_self _ _)
    rw [List.cons_append, utf8str_len_loop, if_neg hc]
    rw [ih (k + 1) (fun x hx => h x (List.mem_cons_of_mem _ hx))]
    simp only [List.length_cons]
    congr 1
    omega

theorem utf8str_len_split (pre rest : List Nat) (h : ∀ c, c ∈ pre → c ≠ 0) :
    utf8str_len (pre ++ 0 :: rest) = some pre.length := by
  unfold utf8str_len
  rw [utf8str_len_loop_split rest pre 0 h, Nat.zero_add]

/-! ## Claims about `utf8str_len` -/

/-- C18: `utf8str_len` returns the index of the first zero element.  For every sequence `s`
that contains a zero the call returns some `len` inside the array with `s[len] = 0` and
`s[i] != 0` for every `i < len`; every sequence that agrees with `s` up to and including that
zero has the same length, whatever lies beyond the terminator.  The embedding is a function of
the sequence alone, so a second call on the unchanged sequence gives the same result. -/
theorem utf8str_len_first_zero (s : List Nat) (h : 0 ∈ s) :
    ∃ len, utf8str_len s = some len ∧ len < s.length ∧ s.getD len 1 = 0 ∧
      (∀ i, i < len → s.getD i 0 ≠ 0) ∧
      (∀ t : List Nat, t.take (len + 1) = s.take (len + 1) → utf8str_len t = some len) := by
  obtain ⟨pre, x, rest, e, hx, hpre⟩ := first_split (fun c => c = 0) s ⟨0, h, rfl⟩
  subst hx
  have hne : ∀ c, c ∈ pre → c ≠ 0 := hpre
  subst e
  refine ⟨pre.length, utf8str_len_split pre rest hne, by simp, ?_, ?_, ?_⟩
  · rw [List.getD_append_right _ _ _ _ (le_refl _)]
    simp
  · intro i hi
    rw [List.getD_append _ _ _ _ hi, List.getD_eq_getElem _ _ hi]
    exact hne _ (List.getElem_mem _)
  · intro t ht
    have e1 : (pre ++ 0 :: rest).take (pre.length + 1) = pre ++ [0] := by
      rw [List.take_append_eq_append_take]
      simp
    rw [e1] at ht
    have e2 : t = (pre ++ [0]) ++ t.drop (pre.length + 1) := by
      rw [← ht, List.take_append_drop]
    rw [e2, List.append_assoc]
    exact utf8str_len_split pre _ hne

/-- C18 at `[0x41, 0xC3A9, 0, 7, 0]`, whose first zero is at index 2. -/
theorem utf8str_len_first_zero_witness :
    0 ∈ [0x41, 0xC3A9, 0, 7, 0] ∧
    ∃ len, utf8str_len [0x41, 0xC3A9, 0, 7, 0] = some len ∧ len < [0x41, 0xC3A9, 0, 7, 0].length ∧
      [0x41, 0xC3A9, 0, 7, 0].getD len 1 = 0 ∧
      (∀ i, i < len → [0x41, 0xC3A9, 0, 7, 0].getD i 0 ≠ 0) ∧
      (∀ t : List Nat, t.take (len + 1) = [0x41, 0xC3A9, 0, 7, 0].take (len + 1) →
        utf8str_len t = some len) :=
  ⟨by decide, utf8str_len_first_zero [0x41, 0xC3A9, 0, 7, 0] (by decide)⟩

/-! ## The sizing loops -/

theorem size_zero : utf8char_size 0 = 1 := by decide

theorem invalid_ne_zero (c : Nat) (h : utf8char_size c = SIZE_MAX) : c ≠ 0 := by
  intro e
  rw [e, size_zero, SIZE_MAX_val] at h
  omega

theorem sizes_sum_le (v : List Nat) (h : ∀ c, c ∈ v → utf8char_size c ≠ SIZE_MAX) :
    (v.map utf8char_size).sum ≤ 4 * v.length := by
  induction v with
  | nil => simp
  | cons c v ih =>
    have := ih (fun x hx => h x (List.mem_cons_of_mem _ hx))
    obtain ⟨-, -, h4⟩ := valid_lt c (h c (List.mem_cons_self _ _))
    simp only [List.map_cons, List.sum_cons, List.length_cons]
    omega

theorem utf8str_buf_size_loop_valid (rest : List Nat) :
    ∀ (v : List Nat) (size : Nat), (∀ c, c ∈ v → c ≠ 0 ∧ utf8char_size c ≠ SIZE_MAX) →
      utf8str_buf_size_loop (v ++ rest) size
        = utf8str_buf_size_loop rest (size + (v.map utf8char_size).sum) := by
  intro v
  induction v with
  | nil => intro size _; simp
  | cons c v ih =>
    intro size h
    obtain ⟨hc0, hcv⟩ := h c (List.mem_cons_self _ _)
    rw [List.cons_append, utf8str_buf_size_loop, if_neg hc0]
    simp only [if_neg hcv]
    rw [ih _ (fun x hx => h x (List.mem_cons_of_mem _ hx))]
    simp only [List.map_cons, List.sum_cons, Nat.add_assoc]

theorem utf8str_buf_size_loop_invalid (bad : Nat) (w : List Nat) (size : Nat)
    (h : utf8char_size bad = SIZE_MAX) :
    utf8str_buf_size_loop (bad :: w) size = some SIZE_MAX := by
  rw [utf8str_buf_size_loop, if_neg (invalid_ne_zero bad h)]
  simp only [h, if_true]

theorem utf8str_buf_size_loop_zero (rest : List Nat) (size : Nat) :
    utf8str_buf_size_loop (0 :: rest) size = some (size + 1) := by
  rw [utf8str_buf_size_loop, if_pos rfl, size_zero]

theorem inval_utf8str_buf_size_loop_valid (rest : List Nat) :
    ∀ (v : List Nat) (size : Nat), (∀ c, c ∈ v → c ≠ 0 ∧ utf8char_size c ≠ SIZE_MAX) →
      inval_utf8str_buf_size_loop (v ++ rest) size
        = inval_utf8str_buf_size_loop rest (size + (v.map utf8char_size).sum) := by
  intro v
  induction v with
  | nil => intro size _; simp
  | cons c v ih =>
    intro size h
    obtain ⟨hc0, hcv⟩ := h c (List.mem_cons_self _ _)
    rw [List.cons_append, inval_utf8str_buf_size_loop, if_neg hc0]
    simp only [if_neg hcv]
    rw [ih _ (fun x hx => h x (List.mem_cons_of_mem _ hx))]
    simp only [List.map_cons, List.sum_cons, Nat.add_assoc]

theorem inval_utf8str_buf_size_loop_invalid (bad : Nat) (w : List Nat) (size : Nat)
    (h : utf8char_size bad = SIZE_MAX) :
    inval_utf8str_buf_size_loop (bad :: w) size = some size := by
  rw [inval_utf8str_buf_size_loop, if_neg (invalid_ne_zero bad h)]
  simp only [h, if_true]

theorem inval_utf8str_buf_size_loop_zero (rest : List Nat) (size : Nat) :
    inval_utf8str_buf_size_loop (0 :: rest) size = some (size + 1) := by
  rw [inval_utf8str_buf_size_loop, if_pos rfl, size_zero]

theorem utf8str_buf_size_n_loop_valid (rest : List Nat) :
    ∀ (v : List Nat) (left size : Nat), (∀ c, c ∈ v → c ≠ 0 ∧ utf8char_size c ≠ SIZE_MAX) →
      utf8str_buf_size_n_loop (v ++ rest) (v.length + left) size
        = utf8str_buf_size_n_loop rest left (size + (v.map utf8char_size).sum) := by
  intro v
  induction v with
  | nil => intro left size _; simp
  | cons c v ih =>
    intro left size h
    obtain ⟨hc0, hcv⟩ := h c (List.mem_cons_self _ _)
    have e : (c :: v).length + left = (v.length + left) + 1 := by
      simp only [List.length_cons]; omega
    rw [List.cons_append, e, utf8str_buf_size_n_loop, if_neg hc0]
    simp only [if_neg hcv]
    rw [ih _ _ (fun x hx => h x (List.mem_cons_of_mem _ hx))]
    simp only [List.map_cons, List.sum_cons, Nat.add_assoc]

theorem utf8str_buf_size_n_loop_invalid (bad : Nat) (w : List Nat) (left size : Nat)
    (h : utf8char_size bad = SIZE_MAX) :
    utf8str_buf_size_n_loop (bad :: w) (left + 1) size = some SIZE_MAX := by
  rw [utf8str_buf_size_n_loop, if_neg (invalid_ne_zero bad h)]
  simp only [h, if_true]

theorem utf8str_buf_size_n_loop_zero (rest : List Nat) (left size : Nat) :
    utf8str_buf_size_n_loop (0 :: rest) (left + 1) size = some (size + 1) := by
  rw [utf8str_buf_size_n_loop, if_pos rfl, size_zero]

theorem utf8str_buf_size_n_loop_done (l : List Nat) (size : Nat) :
    utf8str_buf_size_n_loop l 0 size = some size := by
  cases l <;> rfl

/-! ## Claims about the sizing functions -/

/-- C13: `utf8str_buf_size`.  For a sequence whose first terminator follows the non-zero
characters `pre` (an array of 4-byte cells in a 64-bit address space), the result is the
sentinel if and only if some character of `pre` has `utf8char_size` equal to the sentinel,
whatever follows the terminator; otherwise the result is the sum of `utf8char_size` over the
`utf8str_len` characters of `pre`, plus 1 for the terminator. -/
theorem utf8str_buf_size_spec (pre rest : List Nat) (h0 : ∀ c, c ∈ pre → c ≠ 0)
    (hfit : 4 * (pre ++ 0 :: rest).length ≤ 2 ^ 64) :
    (utf8str_buf_size (pre ++ 0 :: rest) = some SIZE_MAX ↔
      ∃ c, c ∈ pre ∧ utf8char_size c = SIZE_MAX) ∧
    ((∀ c, c ∈ pre → utf8char_size c ≠ SIZE_MAX) →
      utf8str_len (pre ++ 0 :: rest) = some pre.length ∧
      utf8str_buf_size (pre ++ 0 :: rest) = some ((pre.map utf8char_size).sum + 1)) := by
  have hvalid : (∀ c, c ∈ pre → utf8char_size c ≠ SIZE_MAX) →
      utf8str_buf_size (pre ++ 0 :: rest) = some ((pre.map utf8char_size).sum + 1) := by
    intro hv
    unfold utf8str_buf_size
    rw [utf8str_buf_size_loop_valid _ pre 0 (fun c hc => ⟨h0 c hc, hv c hc⟩),
      utf8str_buf_size_loop_zero, Nat.zero_add]
  refine ⟨⟨fun h => ?_, fun h => ?_⟩, fun hv => ⟨utf8str_len_split pre rest h0, hvalid hv⟩⟩
  · by_contra hne
    have hv : ∀ c, c ∈ pre → utf8char_size c ≠ SIZE_MAX := fun c hc e => hne ⟨c, hc, e⟩
    rw [hvalid hv] at h
    have hs := sizes_sum_le pre hv
    have e := Option.some.inj h
    rw [SIZE_MAX_val] at e
    simp only [List.length_append, List.length_cons] at hfit
    norm_num at hfit
    omega
  · obtain ⟨v, bad, w, e, hbad, hv⟩ := first_split (fun c => utf8char_size c = SIZE_MAX) pre h
    unfold utf8str_buf_size
    rw [e, List.append_assoc, List.cons_append,
      utf8str_buf_size_loop_valid _ v 0
        (fun c hc => ⟨h0 c (by rw [e]; exact List.mem_append_left _ hc), hv c hc⟩),
      utf8str_buf_size_loop_invalid _ _ _ hbad]

/-- C13 at `[0x41, 0xC3A9, 0, 0xFFFFFFFF]`: the invalid value after the terminator is not
examined and the result is `1 + 2 + 1`; at `[0x41, 0xFFFFFFFF, 0]` the result is the
sentinel. -/
theorem utf8str_buf_size_spec_witness :
    ((∀ c, c ∈ [0x41, 0xC3A9] → c ≠ 0) ∧
      4 * ([0x41, 0xC3A9] ++ 0 :: [0xFFFFFFFF]).length ≤ 2 ^ 64 ∧
      utf8str_buf_size ([0x41, 0xC3A9] ++ 0 :: [0xFFFFFFFF]) = some 4) ∧
    ((utf8str_buf_size ([0x41, 0xC3A9] ++ 0 :: [0xFFFFFFFF]) = some SIZE_MAX ↔
      ∃ c, c ∈ [0x41, 0xC3A9] ∧ utf8char_size c = SIZE_MAX) ∧
    ((∀ c, c ∈ [0x41, 0xC3A9] → utf8char_size c ≠ SIZE_MAX) →
      utf8str_len ([0x41, 0xC3A9] ++ 0 :: [0xFFFFFFFF]) = some [0x41, 0xC3A9].length ∧
      utf8str_buf_size ([0x41, 0xC3A9] ++ 0 :: [0xFFFFFFFF])
        = some (([0x41, 0xC3A9].map utf8char_size).sum + 1))) ∧
    utf8str_buf_size ([0x41, 0xFFFFFFFF] ++ 0 :: []) = some SIZE_MAX :=
  ⟨⟨by decide, by decide, by decide⟩,
    utf8str_buf_size_spec [0x41, 0xC3A9] [0xFFFFFFFF] (by decide) (by decide),
    (utf8str_buf_size_spec [0x41, 0xFFFFFFFF] [] (by decide) (by decide)).1.2
      ⟨0xFFFFFFFF, by decide, by decide⟩⟩

/-- C14: `inval_utf8str_buf_size`.  For a sequence whose first terminator follows the non-zero
characters `pre`: if every character of `pre` is valid the result equals `utf8str_buf_size`
of the sequence, terminator byte included; if `bad` is the first invalid character of `pre` and
`v` the characters before it, the result is the sum of `utf8char_size` over `v`, with nothing
added for `bad` or the terminator; and for an array of 4-byte cells in a 64-bit address space,
where no sum of sizes wraps around `size_t`, the call returns a value that is not the
sentinel. -/
theorem inval_utf8str_buf_size_spec (pre rest : List Nat) (h0 : ∀ c, c ∈ pre → c ≠ 0) :
    ((∀ c, c ∈ pre → utf8char_size c ≠ SIZE_MAX) →
      inval_utf8str_buf_size (pre ++ 0 :: rest) = utf8str_buf_size (pre ++ 0 :: rest) ∧
      inval_utf8str_buf_size (pre ++ 0 :: rest) = some ((pre.map utf8char_size).sum + 1)) ∧
    (∀ v bad w, pre = v ++ bad :: w → (∀ c, c ∈ v → utf8char_size c ≠ SIZE_MAX) →
      utf8char_size bad = SIZE_MAX →
      inval_utf8str_buf_size (pre ++ 0 :: rest) = some ((v.map utf8char_size).sum)) ∧
    (4 * (pre ++ 0 :: rest).length ≤ 2 ^ 64 →
      ∃ r, inval_utf8str_buf_size (pre ++ 0 :: rest) = some r ∧ r ≠ SIZE_MAX) := by
  have hvalid : (∀ c, c ∈ pre → utf8char_size c ≠ SIZE_MAX) →
      inval_utf8str_buf_size (pre ++ 0 :: rest) = some ((pre.map utf8char_size).sum + 1) := by
    intro hv
    unfold inval_utf8str_buf_size
    rw [inval_utf8str_buf_size_loop_valid _ pre 0 (fun c hc => ⟨h0 c hc, hv c hc⟩),
      inval_utf8str_buf_size_loop_zero, Nat.zero_add]
  have hinvalid : ∀ v bad w, pre = v ++ bad :: w →
      (∀ c, c ∈ v → utf8char_size c ≠ SIZE_MAX) → utf8char_size bad = SIZE_MAX →
      inval_utf8str_buf_size (pre ++ 0 :: rest) = some ((v.map utf8char_size).sum) := by
    intro v bad w e hv hbad
    unfold inval_utf8str_buf_size
    rw [e, List.append_assoc, List.cons_append,
      inval_utf8str_buf_size_loop_valid _ v 0
        (fun c hc => ⟨h0 c (by rw [e]; exact List.mem_append_left _ hc), hv c hc⟩),
      inval_utf8str_buf_size_loop_invalid _ _ _ hbad, Nat.zero_add]
  refine ⟨fun hv => ⟨?_, hvalid hv⟩, hinvalid, fun hfit => ?_⟩
  · rw [hvalid hv]
    unfold utf8str_buf_size
    rw [utf8str_buf_size_loop_valid _ pre 0 (fun c hc => ⟨h0 c hc, hv c hc⟩),
      utf8str_buf_size_loop_zero, Nat.zero_add]
  · simp only [List.length_append, List.length_cons] at hfit
    norm_num at hfit
    by_cases hv : ∀ c, c ∈ pre → utf8char_size c ≠ SIZE_MAX
    · refine ⟨_, hvalid hv, ?_⟩
      have hs := sizes_sum_le pre hv
      rw [SIZE_MAX_val]
      omega
    · have hex : ∃ c, c ∈ pre ∧ utf8char_size c = SIZE_MAX := by
        by_contra hne
        exact hv (fun c hc e => hne ⟨c, hc, e⟩)
      obtain ⟨v, bad, w, e, hbad, hvv⟩ :=
        first_split (fun c => utf8char_size c = SIZE_MAX) pre hex
      refine ⟨_, hinvalid v bad w e hvv hbad, ?_⟩
      have hs := sizes_sum_le v hvv
      have hl : v.length ≤ pre.length := by rw [e]; simp
      rw [SIZE_MAX_val]
      omega

/-- C14 at `[0x41, 0xC3A9, 0]` (all valid: `1 + 2 + 1`, as `utf8str_buf_size`) and at
`[0x41, 0xC3A9, 0xFFFFFFFF, 0x42, 0]` (first invalid character at index 2: `1 + 2`). -/
theorem inval_utf8str_buf_size_spec_witness :
    ((∀ c, c ∈ [0x41, 0xC3A9] → c ≠ 0) ∧ (∀ c, c ∈ [0x41, 0xC3A9] → utf8char_size c ≠ SIZE_MAX) ∧
      inval_utf8str_buf_size ([0x41, 0xC3A9] ++ 0 :: []) = some 4) ∧
    (inval_utf8str_buf_size ([0x41, 0xC3A9] ++ 0 :: [])
        = utf8str_buf_size ([0x41, 0xC3A9] ++ 0 :: []) ∧
      inval_utf8str_buf_size ([0x41, 0xC3A9] ++ 0 :: [])
        = some (([0x41, 0xC3A9].map utf8char_size).sum + 1)) ∧
    ((∀ c, c ∈ [0x41, 0xC3A9, 0xFFFFFFFF, 0x42] → c ≠ 0) ∧
      utf8char_size 0xFFFFFFFF = SIZE_MAX ∧
      inval_utf8str_buf_size ([0x41, 0xC3A9, 0xFFFFFFFF, 0x42] ++ 0 :: []) = some 3) ∧
    inval_utf8str_buf_size ([0x41, 0xC3A9, 0xFFFFFFFF, 0x42] ++ 0 :: [])
      = some (([0x41, 0xC3A9].map utf8char_size).sum) ∧
    (4 * ([0x41, 0xC3A9, 0xFFFFFFFF, 0x42] ++ 0 :: []).length ≤ 2 ^ 64 ∧
      ∃ r, inval_utf8str_buf_size ([0x41, 0xC3A9, 0xFFFFFFFF, 0x42] ++ 0 :: []) = some r
        ∧ r ≠ SIZE_MAX) :=
  ⟨⟨by decide, by decide, by decide⟩,
    (inval_utf8str_buf_size_spec [0x41, 0xC3A9] [] (by decide)).1 (by decide),
    ⟨by decide, by decide, by decide⟩,
    (inval_utf8str_buf_size_spec [0x41, 0xC3A9, 0xFFFFFFFF, 0x42] [] (by decide)).2.1
      [0x41, 0xC3A9] 0xFFFFFFFF [0x42] rfl (by decide) (by decide),
    ⟨by decide,
      (inval_utf8str_buf_size_spec [0x41, 0xC3A9, 0xFFFFFFFF, 0x42] [] (by decide)).2.2
        (by decide)⟩⟩

/-- C15: `utf8str_buf_size_n` is capped at `n` characters or the terminator, whichever comes
first.  For a sequence whose first terminator follows the non-zero characters `pre` (so
`utf8str_len` is `pre.length`): if one of the first `min n pre.length` characters is invalid
the result is the sentinel; otherwise, if `n > pre.length` the result equals
`utf8str_buf_size` of the sequence (terminator byte counted), and it is not the sentinel for an
array of 4-byte cells in a 64-bit address space; and if `n <= pre.length` the result is the sum
of `utf8char_size` over the first `n` characters with no terminator byte, 0 for `n = 0`. -/
theorem utf8str_buf_size_n_spec (pre rest : List Nat) (n : Nat) (h0 : ∀ c, c ∈ pre → c ≠ 0) :
    ((∃ c, c ∈ pre.take n ∧ utf8char_size c = SIZE_MAX) →
      utf8str_buf_size_n (pre ++ 0 :: rest) n = some SIZE_MAX) ∧
    ((∀ c, c ∈ pre.take n → utf8char_size c ≠ SIZE_MAX) → pre.length < n →
      utf8str_buf_size_n (pre ++ 0 :: rest) n = utf8str_buf_size (pre ++ 0 :: rest) ∧
      utf8str_buf_size_n (pre ++ 0 :: rest) n = some ((pre.map utf8char_size).sum + 1) ∧
      (4 * (pre ++ 0 :: rest).length ≤ 2 ^ 64 →
        utf8str_buf_size_n (pre ++ 0 :: rest) n ≠ some SIZE_MAX)) ∧
    ((∀ c, c ∈ pre.take n → utf8char_size c ≠ SIZE_MAX) → n ≤ pre.length →
      utf8str_buf_size_n (pre ++ 0 :: rest) n = some (((pre.take n).map utf8char_size).sum)) ∧
    utf8str_buf_size_n (pre ++ 0 :: rest) 0 = some 0 := by
  have hmem : ∀ c, c ∈ pre.take n → c ∈ pre := fun c hc => List.mem_of_mem_take hc
  refine ⟨?_, ?_, ?_, ?_⟩
  · intro h
    obtain ⟨v, bad, w, e, hbad, hv⟩ :=
      first_split (fun c => utf8char_size c = SIZE_MAX) (pre.take n) h
    have hlen : v.length + 1 + w.length ≤ n := by
      have := List.length_take_le n pre
      rw [e] at this
      simp only [List.length_append, List.length_cons] at this
      omega
    have es : pre ++ 0 :: rest = v ++ bad :: (w ++ (pre.drop n ++ 0 :: rest)) := by
      conv_lhs => rw [← List.take_append_drop n pre, e]
      simp
    have en : n = v.length + ((n - v.length - 1) + 1) := by omega
    unfold utf8str_buf_size_n
    rw [es, en, utf8str_buf_size_n_loop_valid _ v _ 0
        (fun c hc => ⟨h0 c (hmem c (by rw [e]; exact List.mem_append_left _ hc)), hv c hc⟩),
      utf8str_buf_size_n_loop_invalid _ _ _ _ hbad]
  · intro hv hn
    have et : pre.take n = pre := List.take_of_length_le (by omega)
    rw [et] at hv
    have en : n = pre.length + ((n - pre.length - 1) + 1) := by omega
    have e1 : utf8str_buf_size_n (pre ++ 0 :: rest) n
        = some ((pre.map utf8char_size).sum + 1) := by
      unfold utf8str_buf_size_n
      rw [en, utf8str_buf_size_n_loop_valid _ pre _ 0 (fun c hc => ⟨h0 c hc, hv c hc⟩),
        utf8str_buf_size_n_loop_zero, Nat.zero_add]
    refine ⟨?_, e1, ?_⟩
    · rw [e1]
      unfold utf8str_buf_size
      rw [utf8str_buf_size_loop_valid _ pre 0 (fun c hc => ⟨h0 c hc, hv c hc⟩),
        utf8str_buf_size_loop_zero, Nat.zero_add]
    · intro hfit
      rw [e1]
      have hs := sizes_sum_le pre hv
      simp only [List.length_append, List.length_cons] at hfit
      norm_num at hfit
      intro e
      have e2 := Option.some.inj e
      rw [SIZE_MAX_val] at e2
      omega
  · intro hv hn
    have es : pre ++ 0 :: rest = pre.take n ++ (pre.drop n ++ 0 :: rest) := by
      rw [← List.append_assoc, List.take_append_drop]
    have key := utf8str_buf_size_n_loop_valid (pre.drop n ++ 0 :: rest) (pre.take n) 0 0
      (fun c hc => ⟨h0 c (hmem c hc), hv c hc⟩)
    rw [Nat.add_zero, List.length_take, Nat.min_eq_left hn] at key
    unfold utf8str_buf_size_n
    rw [es, key, utf8str_buf_size_n_loop_done, Nat.zero_add]
  · unfold utf8str_buf_size_n
    exact utf8str_buf_size_n_loop_done _ _

/-- C15 at `[0x41, 0xC3A9, 0xE282AC, 0]`: `n = 2` gives `1 + 2`, `n = 5` gives
`1 + 2 + 3 + 1`; at `[0x41, 0xFFFFFFFF, 0]` with `n = 2` the result is the sentinel. -/
theorem utf8str_buf_size_n_spec_witness :
    ((∀ c, c ∈ [0x41, 0xC3A9, 0xE282AC] → c ≠ 0) ∧
      utf8str_buf_size_n ([0x41, 0xC3A9, 0xE282AC] ++ 0 :: []) 2 = some 3 ∧
      utf8str_buf_size_n ([0x41, 0xC3A9, 0xE282AC] ++ 0 :: []) 5 = some 7) ∧
    utf8str_buf_size_n ([0x41, 0xC3A9, 0xE282AC] ++ 0 :: []) 2
      = some ((([0x41, 0xC3A9, 0xE282AC].take 2).map utf8char_size).sum) ∧
    (utf8str_buf_size_n ([0x41, 0xC3A9, 0xE282AC] ++ 0 :: []) 5
        = utf8str_buf_size ([0x41, 0xC3A9, 0xE282AC] ++ 0 :: []) ∧
      utf8str_buf_size_n ([0x41, 0xC3A9, 0xE282AC] ++ 0 :: []) 5
        = some (([0x41, 0xC3A9, 0xE282AC].map utf8char_size).sum + 1) ∧
      (4 * ([0x41, 0xC3A9, 0xE282AC] ++ 0 :: []).length ≤ 2 ^ 64 →
        utf8str_buf_size_n ([0x41, 0xC3A9, 0xE282AC] ++ 0 :: []) 5 ≠ some SIZE_MAX)) ∧
    utf8str_buf_size_n ([0x41, 0xFFFFFFFF] ++ 0 :: []) 2 = some SIZE_MAX :=
  ⟨⟨by decide, by decide, by decide⟩,
    (utf8str_buf_size_n_spec [0x41, 0xC3A9, 0xE282AC] [] 2 (by decide)).2.2.1
      (by decide) (by decide),
    (utf8str_buf_size_n_spec [0x41, 0xC3A9, 0xE282AC] [] 5 (by decide)).2.1
      (by decide) (by decide),
    (utf8str_buf_size_n_spec [0x41, 0xFFFFFFFF] [] 2 (by decide)).1
      ⟨0xFFFFFFFF, by decide, by decide⟩⟩

/-! ## The writing loops -/

theorem storeList_append (l1 : List Nat) :
    ∀ (mem : Mem) (a : Nat) (l2 : List Nat),
      storeList mem a (l1 ++ l2) = storeList (storeList mem a l1) (a + l1.length) l2 := by
  induction l1 with
  | nil => intro mem a l2; simp [storeList]
  | cons c l1 ih =>
    intro mem a l2
    rw [List.cons_append]
    simp only [storeList, List.length_cons]
    rw [ih, show a + 1 + l1.length = a + (l1.length + 1) by omega]

theorem encoded_char_length (c : Nat) (h : utf8char_size c ≠ SIZE_MAX) :
    (encoded_char c).length = utf8char_size c := by
  rw [encoded_char_valid c h]; simp

theorem encoded_char_getD (c j : Nat) (h : utf8char_size c ≠ SIZE_MAX)
    (hj : j < utf8char_size c) :
    (encoded_char c).getD j 0 = c / 256 ^ (utf8char_size c - 1 - j) % 256 := by
  rw [encoded_char_valid c h]
  simp [List.getD_eq_getElem?_getD, hj]

theorem encoded_chars_length (v : List Nat) (h : ∀ c, c ∈ v → utf8char_size c ≠ SIZE_MAX) :
    (encoded_chars v).length = (v.map utf8char_size).sum := by
  induction v with
  | nil => rfl
  | cons c v ih =>
    simp only [encoded_chars, List.length_append, List.map_cons, List.sum_cons]
    rw [ih (fun x hx => h x (List.mem_cons_of_mem _ hx)),
      encoded_char_length c (h c (List.mem_cons_self _ _))]

theorem encoded_chars_append (l1 l2 : List Nat) :
    encoded_chars (l1 ++ l2) = encoded_chars l1 ++ encoded_chars l2 := by
  induction l1 with
  | nil => rfl
  | cons c l1 ih =>
    rw [List.cons_append]
    simp only [encoded_chars, ih, List.append_assoc]

theorem encoded_char_zero : encoded_char 0 = [0] := by decide

theorem write_utf8char_to_buf_fst (mem : Mem) (p c : Nat) :
    (write_utf8char_to_buf mem p c).1 = utf8char_size c := by
  simp only [write_utf8char_to_buf]
  split_ifs <;> rfl

/-- The encoder stores the bytes of `encoded_char c` from `p` on. -/
theorem write_utf8char_to_buf_mem (mem : Mem) (p c : Nat) (h : utf8char_size c ≠ SIZE_MAX) :
    (write_utf8char_to_buf mem p c).2 = storeList mem p (encoded_char c) := by
  obtain ⟨-, w2, w3⟩ := write_utf8char_to_buf_valid mem p c h
  funext a
  by_cases ha : a < p ∨ p + utf8char_size c ≤ a
  · rw [w3 a ha, storeList_outside _ _ _ _ (by rw [encoded_char_length c h]; exact ha)]
  · have e : a = p + (a - p) := by omega
    rw [e, w2 _ (by omega), storeList_inside _ _ _ _ (by rw [encoded_char_length c h]; omega),
      encoded_char_getD c _ h (by omega)]

theorem write_utf8str_to_buf_loop_valid (buf : Nat) (rest : List Nat) :
    ∀ (v : List Nat) (size : Nat) (mem : Mem),
      (∀ c, c ∈ v → c ≠ 0 ∧ utf8char_size c ≠ SIZE_MAX) →
      write_utf8str_to_buf_loop buf (v ++ rest) size mem
        = write_utf8str_to_buf_loop buf rest (size + (encoded_chars v).length)
            (storeList mem (buf + size) (encoded_chars v)) := by
  intro v
  induction v with
  | nil => intro size mem _; simp [encoded_chars, storeList]
  | cons c v ih =>
    intro size mem h
    obtain ⟨hc0, hcv⟩ := h c (List.mem_cons_self _ _)
    rw [List.cons_append, write_utf8str_to_buf_loop, if_neg hc0]
    simp only [write_utf8char_to_buf_fst, if_neg hcv, write_utf8char_to_buf_mem _ _ _ hcv]
    rw [ih _ _ (fun x hx => h x (List.mem_cons_of_mem _ hx))]
    simp only [encoded_chars, List.length_append, storeList_append, encoded_char_length c hcv,
      Nat.add_assoc]

theorem write_utf8str_to_buf_loop_invalid (buf bad : Nat) (w : List Nat) (size : Nat)
    (mem : Mem) (h : utf8char_size bad = SIZE_MAX) :
    write_utf8str_to_buf_loop buf (bad :: w) size mem = some (SIZE_MAX, mem) := by
  rw [write_utf8str_to_buf_loop, if_neg (invalid_ne_zero bad h)]
  simp only [write_utf8char_to_buf_invalid _ _ _ h, if_true]

theorem write_utf8str_to_buf_loop_zero (buf : Nat) (rest : List Nat) (size : Nat) (mem : Mem) :
    write_utf8str_to_buf_loop buf (0 :: rest) size mem
      = some (size + 1, storeList mem (buf + size) [0]) := by
  rw [write_utf8str_to_buf_loop, if_pos rfl]
  simp only [write_utf8char_to_buf_fst, size_zero,
    write_utf8char_to_buf_mem _ _ 0 (by decide), encoded_char_zero]

theorem write_utf8str_to_buf_n_loop_valid (buf : Nat) (rest : List Nat) :
    ∀ (v : List Nat) (left size : Nat) (mem : Mem),
      (∀ c, c ∈ v → c ≠ 0 ∧ utf8char_size c ≠ SIZE_MAX) →
      write_utf8str_to_buf_n_loop buf (v ++ rest) (v.length + left) size mem
        = write_utf8str_to_buf_n_loop buf rest left (size + (encoded_chars v).length)
            (storeList mem (buf + size) (encoded_chars v)) := by
  intro v
  induction v with
  | nil => intro left size mem _; simp [encoded_chars, storeList]
  | cons c v ih =>
    intro left size mem h
    obtain ⟨hc0, hcv⟩ := h c (List.mem_cons_self _ _)
    have e : (c :: v).length + left = (v.length + left) + 1 := by
      simp only [List.length_cons]; omega
    rw [List.cons_append, e, write_utf8str_to_buf_n_loop, if_neg hc0]
    simp only [write_utf8char_to_buf_fst, if_neg hcv, write_utf8char_to_buf_mem _ _ _ hcv]
    rw [ih _ _ _ (fun x hx => h x (List.mem_cons_of_mem _ hx))]
    simp only [encoded_chars, List.length_append, storeList_append, encoded_char_length c hcv,
      Nat.add_assoc]

theorem write_utf8str_to_buf_n_loop_invalid (buf bad : Nat) (w : List Nat) (left size : Nat)
    (mem : Mem) (h : utf8char_size bad = SIZE_MAX) :
    write_utf8str_to_buf_n_loop buf (bad :: w) (left + 1) size mem = some (SIZE_MAX, mem) := by
  rw [write_utf8str_to_buf_n_loop, if_neg (invalid_ne_zero bad h)]
  simp only [write_utf8char_to_buf_invalid _ _ _ h, if_true]

theorem write_utf8str_to_buf_n_loop_zero (buf : Nat) (rest : List Nat) (left size : Nat)
    (mem : Mem) :
    write_utf8str_to_buf_n_loop buf (0 :: rest) (left + 1) size mem
      = some (size + 1, storeList mem (buf + size) [0]) := by
  rw [write_utf8str_to_buf_n_loop, if_pos rfl]
  simp only [write_utf8char_to_buf_fst, size_zero,
    write_utf8char_to_buf_mem _ _ 0 (by decide), encoded_char_zero]

theorem write_utf8str_to_buf_n_loop_done (buf : Nat) (l : List Nat) (size : Nat) (mem : Mem) :
    write_utf8str_to_buf_n_loop buf l 0 size mem = some (size, mem) := by
  cases l <;> rfl

/-- The writer returns what the sizing function computes, on every array. -/
theorem write_utf8str_to_buf_loop_fst (buf : Nat) :
    ∀ (s : List Nat) (size : Nat) (mem : Mem),
      (write_utf8str_to_buf_loop buf s size mem).map Prod.fst = utf8str_buf_size_loop s size := by
  intro s
  induction s with
  | nil => intro size mem; rfl
  | cons c s ih =>
    intro size mem
    rw [write_utf8str_to_buf_loop, utf8str_buf_size_loop]
    by_cases hc0 : c = 0
    · simp only [if_pos hc0, write_utf8char_to_buf_fst, Option.map_some']
    · simp only [if_neg hc0, write_utf8char_to_buf_fst]
      by_cases hcv : utf8char_size c = SIZE_MAX
      · simp only [if_pos hcv, Option.map_some']
      · simp only [if_neg hcv]
        exact ih _ _

theorem write_utf8str_to_buf_n_loop_fst (buf : Nat) :
    ∀ (s : List Nat) (left size : Nat) (mem : Mem),
      (write_utf8str_to_buf_n_loop buf s left size mem).map Prod.fst
        = utf8str_buf_size_n_loop s left size := by
  intro s
  induction s with
  | nil => intro left size mem; cases left <;> rfl
  | cons c s ih =>
    intro left size mem
    cases left with
    | zero => rfl
    | succ left =>
      rw [write_utf8str_to_buf_n_loop, utf8str_buf_size_n_loop]
      by_cases hc0 : c = 0
      · simp only [if_pos hc0, write_utf8char_to_buf_fst, Option.map_some']
      · simp only [if_neg hc0, write_utf8char_to_buf_fst]
        by_cases hcv : utf8char_size c = SIZE_MAX
        · simp only [if_pos hcv, Option.map_some']
        · simp only [if_neg hcv]
          exact ih _ _ _

theorem encoded_chars_snoc_zero (pre : List Nat) :
    encoded_chars (pre ++ [0]) = encoded_chars pre ++ [0] := by
  rw [encoded_chars_append]
  simp only [encoded_chars, encoded_char_zero, List.append_nil]

/-- A sequence of valid characters and its terminator are written in full. -/
theorem write_utf8str_to_buf_valid (mem : Mem) (buf : Nat) (pre rest : List Nat)
    (h : ∀ c, c ∈ pre → c ≠ 0 ∧ utf8char_size c ≠ SIZE_MAX) :
    write_utf8str_to_buf mem buf (pre ++ 0 :: rest)
      = some ((encoded_chars (pre ++ [0])).length,
          storeList mem buf (encoded_chars (pre ++ [0]))) := by
  unfold write_utf8str_to_buf
  rw [write_utf8str_to_buf_loop_valid buf _ pre 0 mem h, write_utf8str_to_buf_loop_zero,
    encoded_chars_snoc_zero, storeList_append]
  simp only [Nat.zero_add, Nat.add_zero, List.length_append, List.length_singleton]

/-- With more iterations than characters before the terminator the bounded writer does what the
unbounded one does. -/
theorem write_utf8str_to_buf_n_valid (mem : Mem) (buf : Nat) (pre rest : List Nat) (n : Nat)
    (h : ∀ c, c ∈ pre → c ≠ 0 ∧ utf8char_size c ≠ SIZE_MAX) (hn : pre.length < n) :
    write_utf8str_to_buf_n mem buf (pre ++ 0 :: rest) n
      = some ((encoded_chars (pre ++ [0])).length,
          storeList mem buf (encoded_chars (pre ++ [0]))) := by
  have en : n = pre.length + ((n - pre.length - 1) + 1) := by omega
  unfold write_utf8str_to_buf_n
  rw [en, write_utf8str_to_buf_n_loop_valid buf _ pre _ 0 mem h,
    write_utf8str_to_buf_n_loop_zero, encoded_chars_snoc_zero, storeList_append]
  simp only [Nat.zero_add, Nat.add_zero, List.length_append, List.length_singleton]

/-- The bounded writer stopped by its count writes the first `n` characters and no
terminator. -/
theorem write_utf8str_to_buf_n_capped (mem : Mem) (buf : Nat) (s : List Nat) (n : Nat)
    (h : ∀ c, c ∈ s.take n → c ≠ 0 ∧ utf8char_size c ≠ SIZE_MAX) (hn : n ≤ s.length) :
    write_utf8str_to_buf_n mem buf s n
      = some ((encoded_chars (s.take n)).length, storeList mem buf (encoded_chars (s.take n))) := by
  have key := write_utf8str_to_buf_n_loop_valid buf (s.drop n) (s.take n) 0 0 mem h
  rw [Nat.add_zero, List.length_take, Nat.min_eq_left hn, List.take_append_drop] at key
  unfold write_utf8str_to_buf_n
  rw [key, write_utf8str_to_buf_n_loop_done]
  simp only [Nat.zero_add, Nat.add_zero]

/-- The writers stop at the first invalid character with the encodings of the characters before
it in the buffer. -/
theorem write_utf8str_to_buf_invalid (mem : Mem) (buf : Nat) (v : List Nat) (bad : Nat)
    (w : List Nat) (hv : ∀ c, c ∈ v → c ≠ 0 ∧ utf8char_size c ≠ SIZE_MAX)
    (hbad : utf8char_size bad = SIZE_MAX) :
    write_utf8str_to_buf mem buf (v ++ bad :: w)
        = some (SIZE_MAX, storeList mem buf (encoded_chars v)) ∧
    ∀ n, v.length < n →
      write_utf8str_to_buf_n mem buf (v ++ bad :: w) n
        = some (SIZE_MAX, storeList mem buf (encoded_chars v)) := by
  constructor
  · unfold write_utf8str_to_buf
    rw [write_utf8str_to_buf_loop_valid buf _ v 0 mem hv,
      write_utf8str_to_buf_loop_invalid _ _ _ _ _ hbad, Nat.add_zero]
  · intro n hn
    have en : n = v.length + ((n - v.length - 1) + 1) := by omega
    unfold write_utf8str_to_buf_n
    rw [en, write_utf8str_to_buf_n_loop_valid buf _ v _ 0 mem hv,
      write_utf8str_to_buf_n_loop_invalid _ _ _ _ _ _ hbad, Nat.add_zero]

/-! ## Claims about the string encoder -/

/-- C11: partial write on failure.  If the non-zero valid characters `v` are followed by an
invalid character `bad`, `write_utf8str_to_buf` returns the sentinel; afterwards the first
`inval_utf8str_buf_size` bytes of the buffer are the concatenated encodings of `v` and every
other cell of the memory is unchanged.  `write_utf8str_to_buf_n` returns the same and leaves the
same memory whenever the invalid character is among the first `n` characters. -/
theorem write_utf8str_to_buf_partial_write (mem : Mem) (buf : Nat) (v : List Nat) (bad : Nat)
    (w : List Nat) (hv : ∀ c, c ∈ v → c ≠ 0 ∧ utf8char_size c ≠ SIZE_MAX)
    (hbad : utf8char_size bad = SIZE_MAX) :
    ∃ mem1 size, write_utf8str_to_buf mem buf (v ++ bad :: w) = some (SIZE_MAX, mem1) ∧
      inval_utf8str_buf_size (v ++ bad :: w) = some size ∧
      cells mem1 buf size = encoded_chars v ∧
      (∀ a, (a < buf ∨ buf + size ≤ a) → mem1 a = mem a) ∧
      (∀ n, v.length < n →
        write_utf8str_to_buf_n mem buf (v ++ bad :: w) n = some (SIZE_MAX, mem1)) := by
  obtain ⟨h1, h2⟩ := write_utf8str_to_buf_invalid mem buf v bad w hv hbad
  refine ⟨storeList mem buf (encoded_chars v), (encoded_chars v).length, h1, ?_,
    cells_storeList mem buf _, fun a ha => storeList_outside _ buf mem a ha, h2⟩
  unfold inval_utf8str_buf_size
  rw [inval_utf8str_buf_size_loop_valid _ v 0 hv,
    inval_utf8str_buf_size_loop_invalid _ _ _ hbad, Nat.zero_add,
    encoded_chars_length v (fun c hc => (hv c hc).2)]

/-- C11 at `[0x41, 0xC3A9, 0xFFFFFFFF, 0x42, 0]` written into a buffer filled with 7: the call
returns the sentinel, the first `1 + 2` bytes are `0x41 0xC3 0xA9` and the rest is untouched. -/
theorem write_utf8str_to_buf_partial_write_witness :
    ((∀ c, c ∈ [0x41, 0xC3A9] → c ≠ 0 ∧ utf8char_size c ≠ SIZE_MAX) ∧
      utf8char_size 0xFFFFFFFF = SIZE_MAX ∧
      (write_utf8str_to_buf (memOfList [7, 7, 7, 7, 7]) 0
          ([0x41, 0xC3A9] ++ 0xFFFFFFFF :: [0x42, 0])).map (fun r => (r.1, cells r.2 0 5))
        = some (SIZE_MAX, [0x41, 0xC3, 0xA9, 7, 7]) ∧
      inval_utf8str_buf_size ([0x41, 0xC3A9] ++ 0xFFFFFFFF :: [0x42, 0]) = some 3) ∧
    ∃ mem1 size,
      write_utf8str_to_buf (memOfList [7, 7, 7, 7, 7]) 0
          ([0x41, 0xC3A9] ++ 0xFFFFFFFF :: [0x42, 0]) = some (SIZE_MAX, mem1) ∧
      inval_utf8str_buf_size ([0x41, 0xC3A9] ++ 0xFFFFFFFF :: [0x42, 0]) = some size ∧
      cells mem1 0 size = encoded_chars [0x41, 0xC3A9] ∧
      (∀ a, (a < 0 ∨ 0 + size ≤ a) → mem1 a = memOfList [7, 7, 7, 7, 7] a) ∧
      (∀ n, [0x41, 0xC3A9].length < n →
        write_utf8str_to_buf_n (memOfList [7, 7, 7, 7, 7]) 0
          ([0x41, 0xC3A9] ++ 0xFFFFFFFF :: [0x42, 0]) n = some (SIZE_MAX, mem1)) :=
  ⟨by decide,
    write_utf8str_to_buf_partial_write (memOfList [7, 7, 7, 7, 7]) 0 [0x41, 0xC3A9] 0xFFFFFFFF
      [0x42, 0] (by decide) (by decide)⟩

/-- C12: the sizing functions predict the writers exactly.  For a sequence whose first
terminator follows the non-zero characters `pre`, `write_utf8str_to_buf` returns the value of
`utf8str_buf_size` and `write_utf8str_to_buf_n` the value of `utf8str_buf_size_n`, the sentinel
included.  On success (every character examined is valid) the returned number of leading bytes
of the buffer hold the encodings of the characters written (the characters of `pre` and the
terminator, or the first `n` characters when `n` does not exceed their number) and every other
cell of the memory is unchanged. -/
theorem writers_match_sizing (mem : Mem) (buf : Nat) (pre rest : List Nat) (n : Nat)
    (h0 : ∀ c, c ∈ pre → c ≠ 0) :
    (write_utf8str_to_buf mem buf (pre ++ 0 :: rest)).map Prod.fst
      = utf8str_buf_size (pre ++ 0 :: rest) ∧
    (write_utf8str_to_buf_n mem buf (pre ++ 0 :: rest) n).map Prod.fst
      = utf8str_buf_size_n (pre ++ 0 :: rest) n ∧
    ((∀ c, c ∈ pre → utf8char_size c ≠ SIZE_MAX) →
      ∃ r mem1, write_utf8str_to_buf mem buf (pre ++ 0 :: rest) = some (r, mem1) ∧
        utf8str_buf_size (pre ++ 0 :: rest) = some r ∧
        cells mem1 buf r = encoded_chars (pre ++ [0]) ∧
        ∀ a, (a < buf ∨ buf + r ≤ a) → mem1 a = mem a) ∧
    ((∀ c, c ∈ pre.take n → utf8char_size c ≠ SIZE_MAX) →
      ∃ r mem1, write_utf8str_to_buf_n mem buf (pre ++ 0 :: rest) n = some (r, mem1) ∧
        utf8str_buf_size_n (pre ++ 0 :: rest) n = some r ∧
        cells mem1 buf r = encoded_chars (if pre.length < n then pre ++ [0] else pre.take n) ∧
        ∀ a, (a < buf ∨ buf + r ≤ a) → mem1 a = mem a) := by
  have ha := write_utf8str_to_buf_loop_fst buf (pre ++ 0 :: rest) 0 mem
  have hb := write_utf8str_to_buf_n_loop_fst buf (pre ++ 0 :: rest) n 0 mem
  refine ⟨ha, hb, fun hv => ?_, fun hv => ?_⟩
  · have hw := write_utf8str_to_buf_valid mem buf pre rest (fun c hc => ⟨h0 c hc, hv c hc⟩)
    refine ⟨_, _, hw, ?_, cells_storeList mem buf _, fun a ha => storeList_outside _ buf mem a ha⟩
    have e : (write_utf8str_to_buf mem buf (pre ++ 0 :: rest)).map Prod.fst
        = utf8str_buf_size (pre ++ 0 :: rest) := ha
    rw [hw] at e
    exact e.symm
  · have e : (write_utf8str_to_buf_n mem buf (pre ++ 0 :: rest) n).map Prod.fst
        = utf8str_buf_size_n (pre ++ 0 :: rest) n := hb
    by_cases hn : pre.length < n
    · have et : pre.take n = pre := List.take_of_length_le (by omega)
      rw [et] at hv
      have hw := write_utf8str_to_buf_n_valid mem buf pre rest n
        (fun c hc => ⟨h0 c hc, hv c hc⟩) hn
      rw [hw] at e
      rw [if_pos hn]
      exact ⟨_, _, hw, e.symm, cells_storeList mem buf _,
        fun a ha => storeList_outside _ buf mem a ha⟩
    · have et : (pre ++ 0 :: rest).take n = pre.take n :=
        List.take_append_of_le_length (by omega)
      have hw := write_utf8str_to_buf_n_capped mem buf (pre ++ 0 :: rest) n
        (by rw [et]; exact fun c hc => ⟨h0 c (List.mem_of_mem_take hc), hv c hc⟩)
        (by simp only [List.length_append, List.length_cons]; omega)
      rw [et] at hw
      rw [hw] at e
      rw [if_neg hn]
      exact ⟨_, _, hw, e.symm, cells_storeList mem buf _,
        fun a ha => storeList_outside _ buf mem a ha⟩

/-- C12 at `[0x41, 0xC3A9, 0xE282AC, 0]` written into a buffer filled with 7: the unbounded
writer returns 7 and writes 7 bytes, the writer bounded by `n = 2` returns 3 and writes 3
bytes. -/
theorem writers_match_sizing_witness :
    ((∀ c, c ∈ [0x41, 0xC3A9, 0xE282AC] → c ≠ 0) ∧
      (write_utf8str_to_buf (memOfList [7, 7, 7, 7, 7, 7, 7, 7]) 0
          ([0x41, 0xC3A9, 0xE282AC] ++ 0 :: [])).map (fun r => (r.1, cells r.2 0 8))
        = some (7, [0x41, 0xC3, 0xA9, 0xE2, 0x82, 0xAC, 0, 7]) ∧
      (write_utf8str_to_buf_n (memOfList [7, 7, 7, 7, 7, 7, 7, 7]) 0
          ([0x41, 0xC3A9, 0xE282AC] ++ 0 :: []) 2).map (fun r => (r.1, cells r.2 0 8))
        = some (3, [0x41, 0xC3, 0xA9, 7, 7, 7, 7, 7])) ∧
    (write_utf8str_to_buf (memOfList [7, 7, 7, 7, 7, 7, 7, 7]) 0
        ([0x41, 0xC3A9, 0xE282AC] ++ 0 :: [])).map Prod.fst
      = utf8str_buf_size ([0x41, 0xC3A9, 0xE282AC] ++ 0 :: []) ∧
    (∃ r mem1, write_utf8str_to_buf (memOfList [7, 7, 7, 7, 7, 7, 7, 7]) 0
          ([0x41, 0xC3A9, 0xE282AC] ++ 0 :: []) = some (r, mem1) ∧
        utf8str_buf_size ([0x41, 0xC3A9, 0xE282AC] ++ 0 :: []) = some r ∧
        cells mem1 0 r = encoded_chars ([0x41, 0xC3A9, 0xE282AC] ++ [0]) ∧
        ∀ a, (a < 0 ∨ 0 + r ≤ a) → mem1 a = memOfList [7, 7, 7, 7, 7, 7, 7, 7] a) ∧
    (∃ r mem1, write_utf8str_to_buf_n (memOfList [7, 7, 7, 7, 7, 7, 7, 7]) 0
          ([0x41, 0xC3A9, 0xE282AC] ++ 0 :: []) 2 = some (r, mem1) ∧
        utf8str_buf_size_n ([0x41, 0xC3A9, 0xE282AC] ++ 0 :: []) 2 = some r ∧
        cells mem1 0 r = encoded_chars
          (if [0x41, 0xC3A9, 0xE282AC].length < 2 then [0x41, 0xC3A9, 0xE282AC] ++ [0]
            else [0x41, 0xC3A9, 0xE282AC].take 2) ∧
        ∀ a, (a < 0 ∨ 0 + r ≤ a) → mem1 a = memOfList [7, 7, 7, 7, 7, 7, 7, 7] a) :=
  ⟨by decide,
    (writers_match_sizing (memOfList [7, 7, 7, 7, 7, 7, 7, 7]) 0 [0x41, 0xC3A9, 0xE282AC] [] 0
      (by decide)).1,
    (writers_match_sizing (memOfList [7, 7, 7, 7, 7, 7, 7, 7]) 0 [0x41, 0xC3A9, 0xE282AC] [] 0
      (by decide)).2.2.1 (by decide),
    (writers_match_sizing (memOfList [7, 7, 7, 7, 7, 7, 7, 7]) 0 [0x41, 0xC3A9, 0xE282AC] [] 2
      (by decide)).2.2.2 (by decide)⟩

/-! ## The string round trip -/

theorem encoded_chars_lt (v : List Nat) (h : ∀ c, c ∈ v → utf8char_size c ≠ SIZE_MAX) :
    ∀ b, b ∈ encoded_chars v → b < 256 := by
  induction v with
  | nil => intro b hb; simp [encoded_chars] at hb
  | cons c v ih =>
    intro b hb
    simp only [encoded_chars, List.mem_append] at hb
    rcases hb with hb | hb
    · rw [encoded_char_valid c (h c (List.mem_cons_self _ _))] at hb
      obtain ⟨j, -, rfl⟩ := List.mem_map.mp hb
      exact Nat.mod_lt _ (by norm_num)
    · exact ih (fun x hx => h x (List.mem_cons_of_mem _ hx)) b hb

theorem encoded_chars_getD_mod (v : List Nat) (h : ∀ c, c ∈ v → utf8char_size c ≠ SIZE_MAX)
    (j : Nat) : (encoded_chars v).getD j 0 % 256 = (encoded_chars v).getD j 0 := by
  apply Nat.mod_eq_of_lt
  by_cases hj : j < (encoded_chars v).length
  · rw [List.getD_eq_getElem _ _ hj]
    exact encoded_chars_lt v h _ (List.getElem_mem _)
  · rw [List.getD_eq_default _ _ (by omega)]
    norm_num

/-- One iteration of the scan at a zero byte stores the terminator and returns `bufsize`. -/
theorem read_loop_terminator (s : Nat) (mem : Mem) (buf bufsize f n : Nat) (smem : Mem)
    (cc : Nat) (hn : n < bufsize) (hb : mem (buf + n) % 256 = 0) :
    read_buf_to_utf8str_loop s mem buf bufsize (f + 1) n smem cc
      = some (bufsize, store smem (s + cc) 0) := by
  have hd : deduce_utf8char_size (mem (buf + n) % 256) = 1 := deduce_eq_1 _ (by omega)
  have hs : str_to_utf8char mem (buf + n) = 0 := by
    rw [str_to_utf8char_one mem (buf + n) (by omega), hb]
  simp only [read_buf_to_utf8str_loop, hd, hs]
  rw [if_pos hn, if_neg (by rw [SIZE_MAX_val]; omega), if_neg (by rw [UTF8CHAR_MAX_val]; omega)]
  simp only [if_true]

/-! ## Claims about the string round trip -/

/-- C19: string round trip restricted to well-formed characters.  For a sequence whose first
terminator follows the non-zero well-formed characters `pre`, `write_utf8str_to_buf` returns
`utf8str_buf_size` of the sequence, and `read_buf_to_utf8str` on the written bytes with that
`bufsize` returns it too and stores `pre` followed by the terminator in the output, leaving every
other output cell unchanged. -/
theorem str_round_trip_well_formed (mem : Mem) (buf : Nat) (smem : Mem) (s : Nat)
    (pre rest : List Nat) (hwf : ∀ c, c ∈ pre → c ≠ 0 ∧ well_formed c) :
    ∃ n mem1 smem1, utf8str_buf_size (pre ++ 0 :: rest) = some n ∧
      write_utf8str_to_buf mem buf (pre ++ 0 :: rest) = some (n, mem1) ∧
      read_buf_to_utf8str smem s mem1 buf n = some (n, smem1) ∧
      cells smem1 s (pre.length + 1) = pre ++ [0] ∧
      ∀ a, (a < s ∨ s + (pre.length + 1) ≤ a) → smem1 a = smem a := by
  have hv : ∀ c, c ∈ pre → c ≠ 0 ∧ utf8char_size c ≠ SIZE_MAX :=
    fun c hc => ⟨(hwf c hc).1, (hwf c hc).2.1⟩
  have hv2 : ∀ c, c ∈ pre → utf8char_size c ≠ SIZE_MAX := fun c hc => (hv c hc).2
  have hw := write_utf8str_to_buf_valid mem buf pre rest hv
  have hsz : (write_utf8str_to_buf mem buf (pre ++ 0 :: rest)).map Prod.fst
      = utf8str_buf_size (pre ++ 0 :: rest) :=
    write_utf8str_to_buf_loop_fst buf (pre ++ 0 :: rest) 0 mem
  rw [hw] at hsz
  have hlen := length_le_encoded pre hwf
  have hN : (encoded_chars (pre ++ [0])).length = (encoded_chars pre).length + 1 := by
    rw [encoded_chars_snoc_zero]; simp
  have hbytes : ∀ j, j < (encoded_chars pre).length →
      storeList mem buf (encoded_chars (pre ++ [0])) (buf + 0 + j) % 256
        = (encoded_chars pre).getD j 0 := by
    intro j hj
    rw [Nat.add_zero, storeList_inside _ _ _ _ (by omega), encoded_chars_snoc_zero,
      List.getD_append _ _ _ _ hj, encoded_chars_getD_mod pre hv2]
  have hzero : storeList mem buf (encoded_chars (pre ++ [0])) (buf + (encoded_chars pre).length)
      % 256 = 0 := by
    rw [storeList_inside _ _ _ _ (by omega), encoded_chars_snoc_zero,
      List.getD_append_right _ _ _ _ (le_refl _)]
    simp
  have hfuel : (encoded_chars (pre ++ [0])).length + 1
      = pre.length + (((encoded_chars pre).length - pre.length + 1) + 1) := by omega
  have hst : store (storeList smem s pre) (s + pre.length) 0 = storeList smem s (pre ++ [0]) := by
    rw [storeList_append]; rfl
  refine ⟨_, _, storeList smem s (pre ++ [0]), hsz.symm, hw, ?_, ?_, ?_⟩
  · unfold read_buf_to_utf8str
    rw [hfuel, read_loop_chars s _ buf _ pre _ 0 smem 0 hwf hbytes (by omega)]
    simp only [Nat.zero_add, Nat.add_zero]
    rw [read_loop_terminator s _ buf _ _ _ _ _ (by omega) hzero, hst]
  · have e := cells_storeList smem s (pre ++ [0])
    simpa using e
  · intro a ha
    exact storeList_outside _ s smem a (by simpa using ha)

/-- C19 at `[0x41, 0xC3A9, 0xE282AC, 0]`: 7 bytes are written and read back into the same four
characters. -/
theorem str_round_trip_well_formed_witness :
    ((∀ c, c ∈ [0x41, 0xC3A9, 0xE282AC] → c ≠ 0 ∧ well_formed c) ∧
      ((write_utf8str_to_buf (memOfList []) 0 ([0x41, 0xC3A9, 0xE282AC] ++ 0 :: [])).bind
          (fun w => read_buf_to_utf8str (memOfList [9, 9, 9, 9, 9]) 0 w.2 0 w.1)).map
        (fun r => (r.1, cells r.2 0 5)) = some (7, [0x41, 0xC3A9, 0xE282AC, 0, 9])) ∧
    ∃ n mem1 smem1, utf8str_buf_size ([0x41, 0xC3A9, 0xE282AC] ++ 0 :: []) = some n ∧
      write_utf8str_to_buf (memOfList []) 0 ([0x41, 0xC3A9, 0xE282AC] ++ 0 :: [])
        = some (n, mem1) ∧
      read_buf_to_utf8str (memOfList [9, 9, 9, 9, 9]) 0 mem1 0 n = some (n, smem1) ∧
      cells smem1 0 ([0x41, 0xC3A9, 0xE282AC].length + 1) = [0x41, 0xC3A9, 0xE282AC] ++ [0] ∧
      ∀ a, (a < 0 ∨ 0 + ([0x41, 0xC3A9, 0xE282AC].length + 1) ≤ a) →
        smem1 a = memOfList [9, 9, 9, 9, 9] a :=
  ⟨by decide,
    str_round_trip_well_formed (memOfList []) 0 (memOfList [9, 9, 9, 9, 9]) 0
      [0x41, 0xC3A9, 0xE282AC] [] (by decide)⟩

/-! ## What the scan stores -/

/-- A decoded character is valid, has the size its lead byte predicted, and its encoding is the
bytes that were read. -/
theorem str_to_utf8char_encoded (mem : Mem) (p : Nat) (h : str_to_utf8char mem p ≠ UTF8CHAR_MAX) :
    utf8char_size (str_to_utf8char mem p) ≠ SIZE_MAX ∧
    utf8char_size (str_to_utf8char mem p) = deduce_utf8char_size (mem p % 256) ∧
    ∀ j, j < utf8char_size (str_to_utf8char mem p) →
      mem (p + j) % 256 = (encoded_char (str_to_utf8char mem p)).getD j 0 := by
  obtain ⟨hk, hsz, -, hd, -⟩ := str_to_utf8char_ok mem p h
  have hne : utf8char_size (str_to_utf8char mem p) ≠ SIZE_MAX := by
    rw [hsz, SIZE_MAX_val]
    rcases hk with hk | hk | hk | hk <;> omega
  refine ⟨hne, hsz, fun j hj => ?_⟩
  rw [encoded_char_getD _ j hne hj, hsz]
  exact (hd j (by rw [← hsz]; exact hj)).symm

/-- The scan from offset `i`: the characters `cs` it stores are valid, their encodings are the
bytes of the buffer from `i` on, and either the last of them is the only zero and the scan
returns `bufsize`, or none is zero and the scan returns the offset after them, which is
`bufsize` or the offset of a byte that cannot be decoded. -/
theorem read_loop_trace (s : Nat) (mem : Mem) (buf bufsize : Nat) :
    ∀ (fuel i : Nat) (smem : Mem) (cc : Nat), i ≤ bufsize → bufsize - i < fuel →
      ∃ cs : List Nat,
        (∀ c, c ∈ cs → utf8char_size c ≠ SIZE_MAX) ∧
        (∀ j, j < (encoded_chars cs).length →
          mem (buf + i + j) % 256 = (encoded_chars cs).getD j 0) ∧
        i + (encoded_chars cs).length ≤ bufsize ∧
        ((∃ init, cs = init ++ [0] ∧ (∀ c, c ∈ init → c ≠ 0) ∧
            read_buf_to_utf8str_loop s mem buf bufsize fuel i smem cc
              = some (bufsize, storeList smem (s + cc) cs)) ∨
          ((∀ c, c ∈ cs → c ≠ 0) ∧
            read_buf_to_utf8str_loop s mem buf bufsize fuel i smem cc
              = some (i + (encoded_chars cs).length, storeList smem (s + cc) cs) ∧
            (i + (encoded_chars cs).length = bufsize ∨
              (i + (encoded_chars cs).length < bufsize ∧
                (deduce_utf8char_size (mem (buf + (i + (encoded_chars cs).length)) % 256) = 0
                  ∨ deduce_utf8char_size (mem (buf + (i + (encoded_chars cs).length)) % 256)
                      = SIZE_MAX
                  ∨ bufsize < i + (encoded_chars cs).length
                      + deduce_utf8char_size (mem (buf + (i + (encoded_chars cs).length)) % 256)
                  ∨ str_to_utf8char mem (buf + (i + (encoded_chars cs).length))
                      = UTF8CHAR_MAX))))) := by
  intro fuel
  induction fuel with
  | zero => intro i smem cc _ h; omega
  | succ fuel ih =>
    intro i smem cc hi hf
    simp only [read_buf_to_utf8str_loop]
    by_cases h1 : i < bufsize
    · rw [if_pos h1]
      by_cases h2 : deduce_utf8char_size (mem (buf + i) % 256) = 0
          ∨ deduce_utf8char_size (mem (buf + i) % 256) = SIZE_MAX
          ∨ i + deduce_utf8char_size (mem (buf + i) % 256) > bufsize
      · rw [if_pos h2]
        refine ⟨[], fun c hc => by simp at hc, fun j hj => by simp [encoded_chars] at hj,
          by simp [encoded_chars]; omega, Or.inr ⟨fun c hc => by simp at hc, ?_, Or.inr ?_⟩⟩
        · simp [encoded_chars, storeList]
        · simp only [encoded_chars, List.length_nil, Nat.add_zero]
          refine ⟨h1, ?_⟩
          rcases h2 with h2 | h2 | h2
          · exact Or.inl h2
          · exact Or.inr (Or.inl h2)
          · exact Or.inr (Or.inr (Or.inl h2))
      · rw [if_neg h2]
        by_cases h3 : str_to_utf8char mem (buf + i) = UTF8CHAR_MAX
        · rw [if_pos h3]
          refine ⟨[], fun c hc => by simp at hc, fun j hj => by simp [encoded_chars] at hj,
            by simp [encoded_chars]; omega, Or.inr ⟨fun c hc => by simp at hc, ?_, Or.inr ?_⟩⟩
          · simp [encoded_chars, storeList]
          · simp only [encoded_chars, List.length_nil, Nat.add_zero]
            exact ⟨h1, Or.inr (Or.inr (Or.inr h3))⟩
        · rw [if_neg h3]
          obtain ⟨hcv, hsz, hby⟩ := str_to_utf8char_encoded mem (buf + i) h3
          have hlenc := encoded_char_length _ hcv
          have hfit : i + deduce_utf8char_size (mem (buf + i) % 256) ≤ bufsize := by
            by_contra hgt
            exact h2 (Or.inr (Or.inr (by omega)))
          have hd0 : deduce_utf8char_size (mem (buf + i) % 256) ≠ 0 := fun h => h2 (Or.inl h)
          by_cases h4 : str_to_utf8char mem (buf + i) = 0
          · rw [if_pos h4]
            refine ⟨[0], ?_, ?_, ?_, Or.inl ⟨[], rfl, fun c hc => by simp at hc, ?_⟩⟩
            · intro c hc
              rw [List.mem_singleton.mp hc]
              decide
            · intro j hj
              have hj0 : j = 0 := by
                simp only [encoded_chars, encoded_char_zero] at hj
                simpa using hj
              subst hj0
              have e := hby 0 (by rw [h4, size_zero]; omega)
              rw [h4] at e
              simpa [encoded_chars] using e
            · simp only [encoded_chars, encoded_char_zero, List.append_nil,
                List.length_singleton]
              omega
            · rw [h4]; rfl
          · rw [if_neg h4]
            obtain ⟨cs, hcs, hbytes, hle, hcase⟩ :=
              ih (i + deduce_utf8char_size (mem (buf + i) % 256))
                (store smem (s + cc) (str_to_utf8char mem (buf + i))) (cc + 1) hfit (by omega)
            have hlen : (encoded_chars (str_to_utf8char mem (buf + i) :: cs)).length
                = deduce_utf8char_size (mem (buf + i) % 256) + (encoded_chars cs).length := by
              simp only [encoded_chars, List.length_append, hlenc, hsz]
            have hst : storeList smem (s + cc) (str_to_utf8char mem (buf + i) :: cs)
                = storeList (store smem (s + cc) (str_to_utf8char mem (buf + i)))
                    (s + (cc + 1)) cs := rfl
            have hoff : i + (deduce_utf8char_size (mem (buf + i) % 256)
                  + (encoded_chars cs).length)
                = i + deduce_utf8char_size (mem (buf + i) % 256) + (encoded_chars cs).length := by
              omega
            refine ⟨str_to_utf8char mem (buf + i) :: cs, ?_, ?_, by rw [hlen]; omega, ?_⟩
            · intro c hc
              rcases List.mem_cons.mp hc with e | e
              · rw [e]; exact hcv
              · exact hcs c e
            · intro j hj
              rw [hlen] at hj
              simp only [encoded_chars]
              by_cases hjd : j < deduce_utf8char_size (mem (buf + i) % 256)
              · rw [List.getD_append _ _ _ _ (by rw [hlenc, hsz]; exact hjd)]
                exact hby j (by rw [hsz]; exact hjd)
              · rw [List.getD_append_right _ _ _ _ (by rw [hlenc, hsz]; omega), hlenc, hsz]
                have e := hbytes (j - deduce_utf8char_size (mem (buf + i) % 256)) (by omega)
                rw [← e]
                congr 2
                omega
            · rcases hcase with ⟨init, e, hinit, hres⟩ | ⟨hnz, hres, hend⟩
              · refine Or.inl ⟨str_to_utf8char mem (buf + i) :: init, by rw [e]; rfl, ?_, ?_⟩
                · intro c hc
                  rcases List.mem_cons.mp hc with e2 | e2
                  · rw [e2]; exact h4
                  · exact hinit c e2
                · rw [hres, hst]
              · refine Or.inr ⟨?_, ?_, ?_⟩
                · intro c hc
                  rcases List.mem_cons.mp hc with e2 | e2
                  · rw [e2]; exact h4
                  · exact hnz c e2
                · rw [hres, hst, hlen, hoff]
                · rw [hlen, hoff]
                  exact hend
    · rw [if_neg h1]
      refine ⟨[], fun c hc => by simp at hc, fun j hj => by simp [encoded_chars] at hj,
        by simp [encoded_chars]; omega, Or.inr ⟨fun c hc => by simp at hc, ?_, Or.inl ?_⟩⟩
      · simp only [encoded_chars, List.length_nil, Nat.add_zero, storeList]
        congr 2
        omega
      · simp only [encoded_chars, List.length_nil, Nat.add_zero]
        omega

theorem cells_map_eq_of_getD (mem : Mem) (p : Nat) (l : List Nat)
    (h : ∀ j, j < l.length → mem (p + j) % 256 = l.getD j 0) :
    (cells mem p l.length).map (fun b => b % 256) = l := by
  apply List.ext_getElem
  · simp [cells]
  · intro j h1 h2
    simp only [cells, List.getElem_map, List.getElem_range]
    rw [h j h2, List.getD_eq_getElem _ _ h2]

/-! ## Claims about the output of the string decoder -/

/-- C20: output frame of `read_buf_to_utf8str`.  The call returns, and there is a list `cs` of
decoded characters, `m` of them, such that the output cells `0 .. m-1` hold `cs`, every other
output cell is unchanged, every character of `cs` is valid (`utf8char_size` is not the
sentinel) and the encodings of `cs`, in order, are the bytes at the start of the buffer.  Either
the last character of `cs` is zero, the only zero stored, decoded from a zero byte, and the call
returns `bufsize`; or the scan ended by reaching `bufsize` or at a byte that cannot be decoded,
and then no stored character is zero: the output is not zero-terminated by the call, which
returns the number of bytes decoded. -/
theorem read_buf_to_utf8str_output_frame (smem : Mem) (s : Nat) (mem : Mem)
    (buf bufsize : Nat) :
    ∃ (cs : List Nat) (r : Nat) (smem1 : Mem),
      read_buf_to_utf8str smem s mem buf bufsize = some (r, smem1) ∧
      cells smem1 s cs.length = cs ∧
      (∀ a, (a < s ∨ s + cs.length ≤ a) → smem1 a = smem a) ∧
      (∀ c, c ∈ cs → utf8char_size c ≠ SIZE_MAX) ∧
      (cells mem buf (encoded_chars cs).length).map (fun b => b % 256) = encoded_chars cs ∧
      (encoded_chars cs).length ≤ bufsize ∧
      ((∃ init, cs = init ++ [0] ∧ (∀ c, c ∈ init → c ≠ 0) ∧ r = bufsize ∧
          mem (buf + (encoded_chars init).length) % 256 = 0) ∨
        ((∀ c, c ∈ cs → c ≠ 0) ∧ r = (encoded_chars cs).length ∧
          (r = bufsize ∨
            (r < bufsize ∧
              (deduce_utf8char_size (mem (buf + r) % 256) = 0
                ∨ deduce_utf8char_size (mem (buf + r) % 256) = SIZE_MAX
                ∨ bufsize < r + deduce_utf8char_size (mem (buf + r) % 256)
                ∨ str_to_utf8char mem (buf + r) = UTF8CHAR_MAX))))) := by
  obtain ⟨cs, hcs, hbytes, hle, hcase⟩ :=
    read_loop_trace s mem buf bufsize (bufsize + 1) 0 smem 0 (Nat.zero_le _) (by omega)
  simp only [Nat.zero_add, Nat.add_zero] at hbytes hle hcase
  have hpre := cells_map_eq_of_getD mem buf (encoded_chars cs) hbytes
  rcases hcase with ⟨init, e, hinit, hres⟩ | ⟨hnz, hres, hend⟩
  · refine ⟨cs, bufsize, storeList smem s cs, hres, cells_storeList smem s cs,
      fun a ha => storeList_outside cs s smem a ha, hcs, hpre, hle,
      Or.inl ⟨init, e, hinit, rfl, ?_⟩⟩
    have hb := hbytes (encoded_chars init).length
      (by rw [e, encoded_chars_snoc_zero]; simp)
    rw [hb, e, encoded_chars_snoc_zero, List.getD_append_right _ _ _ _ (le_refl _)]
    simp
  · exact ⟨cs, (encoded_chars cs).length, storeList smem s cs, hres, cells_storeList smem s cs,
      fun a ha => storeList_outside cs s smem a ha, hcs, hpre, hle, Or.inr ⟨hnz, rfl, hend⟩⟩

/-- C20 at `[0x41, 0xC3, 0xA9, 0x80]` with `bufsize = 4` and an output filled with 9: the call
returns 3, stores the two characters `0x41`, `0xC3A9` and no terminator. -/
theorem read_buf_to_utf8str_output_frame_witness :
    (read_buf_to_utf8str (memOfList [9, 9, 9, 9]) 0 (memOfList [0x41, 0xC3, 0xA9, 0x80]) 0 4).map
        (fun r => (r.1, cells r.2 0 4)) = some (3, [0x41, 0xC3A9, 9, 9]) ∧
    ∃ (cs : List Nat) (r : Nat) (smem1 : Mem),
      read_buf_to_utf8str (memOfList [9, 9, 9, 9]) 0 (memOfList [0x41, 0xC3, 0xA9, 0x80]) 0 4
        = some (r, smem1) ∧
      cells smem1 0 cs.length = cs ∧
      (∀ a, (a < 0 ∨ 0 + cs.length ≤ a) → smem1 a = memOfList [9, 9, 9, 9] a) ∧
      (∀ c, c ∈ cs → utf8char_size c ≠ SIZE_MAX) ∧
      (cells (memOfList [0x41, 0xC3, 0xA9, 0x80]) 0 (encoded_chars cs).length).map
        (fun b => b % 256) = encoded_chars cs ∧
      (encoded_chars cs).length ≤ 4 ∧
      ((∃ init, cs = init ++ [0] ∧ (∀ c, c ∈ init → c ≠ 0) ∧ r = 4 ∧
          memOfList [0x41, 0xC3, 0xA9, 0x80] (0 + (encoded_chars init).length) % 256 = 0) ∨
        ((∀ c, c ∈ cs → c ≠ 0) ∧ r = (encoded_chars cs).length ∧
          (r = 4 ∨
            (r < 4 ∧
              (deduce_utf8char_size (memOfList [0x41, 0xC3, 0xA9, 0x80] (0 + r) % 256) = 0
                ∨ deduce_utf8char_size (memOfList [0x41, 0xC3, 0xA9, 0x80] (0 + r) % 256)
                    = SIZE_MAX
                ∨ 4 < r + deduce_utf8char_size (memOfList [0x41, 0xC3, 0xA9, 0x80] (0 + r) % 256)
                ∨ str_to_utf8char (memOfList [0x41, 0xC3, 0xA9, 0x80]) (0 + r)
                    = UTF8CHAR_MAX))))) :=
  ⟨by decide,
    read_buf_to_utf8str_output_frame (memOfList [9, 9, 9, 9]) 0
      (memOfList [0x41, 0xC3, 0xA9, 0x80]) 0 4⟩

end Utf8Str
